import Mathlib

/-!
Verification of the tokenizer and recursive-descent parser of the
digital-logic-simulator hardware-description language (src/src/lang.rs).

The Rust code is shallowly embedded: the lexer state is (source, position,
line, column) with the current character derived as the position-th
character of the source, exactly as the Rust code maintains it
(`self.current_char = self.source.chars().nth(self.position)`); the parser
state is (tokens, position).  Every `while` loop and every recursion of the
source becomes a structurally recursive Lean function over an explicit fuel
argument; the public wrapper passes `source.length + 1 - position` fuel,
which the unfolding lemmas prove is always enough, so the wrapper satisfies
exactly the recurrence of the Rust loop.  Fallible Rust functions returning
`Result` become functions returning `Except` paired with the updated state.
-/

/-- Location in the source code, 1-based line and column (lang.rs `Location`). -/
structure Location where
  line : Nat
  column : Nat
deriving DecidableEq, Repr

/-- Lexer errors (lang.rs `LexerError`). -/
inductive LexerError where
  | UnexpectedCharacter (c : Char) (loc : Location)
  | InvalidIdentifier (s : String) (loc : Location)
deriving DecidableEq, Repr

/-- Token kinds (lang.rs `TokenKind`). -/
inductive TokenKind where
  | Inputs
  | Outputs
  | In
  | Out
  | Comma
  | ParenOpen
  | ParenClose
  | Newline
  | EOF
  | And
  | Or
  | Not
  | Nand
  | Nor
  | Xor
  | Xnor
  | Subcircuit
  | End
  | Identifier (s : String)
deriving DecidableEq, Repr

/-- The lexer state (lang.rs `Lexer`).  The Rust struct also stores
`current_char`, which it keeps equal to `source.chars().nth(position)`;
here that field is derived (`Lexer.current_char`). -/
structure Lexer where
  source : List Char
  position : Nat
  line : Nat
  column : Nat
deriving DecidableEq, Repr

/-- Lexer.new: position 0, line 1, column 1. -/
def Lexer.new (source : List Char) : Lexer :=
  { source := source, position := 0, line := 1, column := 1 }

/-- The current character: `self.source.chars().nth(self.position)`. -/
def Lexer.current_char (l : Lexer) : Option Char :=
  l.source.get? l.position

/-- Lexer.get_location. -/
def Lexer.get_location (l : Lexer) : Location :=
  { line := l.line, column := l.column }

/-- Lexer.advance: step one character, updating line/column. -/
def Lexer.advance (l : Lexer) : Lexer :=
  match l.current_char with
  | some c =>
    if c = '\n' then
      { l with position := l.position + 1, line := l.line + 1, column := 1 }
    else
      { l with position := l.position + 1, column := l.column + 1 }
  | none => { l with position := l.position + 1 }

/-- The fuel every fuelled loop below starts with: one more than the number
of characters left, which the unfolding lemmas show is always sufficient. -/
def Lexer.fuel (l : Lexer) : Nat :=
  l.source.length + 1 - l.position

theorem Lexer.advance_source (l : Lexer) : l.advance.source = l.source := by
  unfold Lexer.advance; split <;> (try split) <;> rfl

theorem Lexer.advance_position (l : Lexer) : l.advance.position = l.position + 1 := by
  unfold Lexer.advance; split <;> (try split) <;> rfl

theorem Lexer.advance_fuel (l : Lexer) : l.advance.fuel = l.fuel - 1 := by
  unfold Lexer.fuel
  rw [Lexer.advance_source, Lexer.advance_position]
  omega

theorem Lexer.current_char_lt (l : Lexer) (c : Char) (h : l.current_char = some c) :
    l.position < l.source.length := by
  unfold Lexer.current_char at h
  exact (List.get?_eq_some.mp h).1

theorem Lexer.current_char_none (l : Lexer) (h : l.source.length ≤ l.position) :
    l.current_char = none := by
  unfold Lexer.current_char
  exact List.get?_eq_none.mpr h

theorem Lexer.fuel_pos (l : Lexer) (c : Char) (h : l.current_char = some c) :
    l.fuel = (l.fuel - 1) + 1 := by
  have := Lexer.current_char_lt l c h
  unfold Lexer.fuel
  omega

/-- Loop body of Lexer.skip_whitespace, structurally recursive on fuel. -/
def Lexer.skip_whitespace_go : Nat → Lexer → Lexer
  | 0, l => l
  | n + 1, l =>
    match l.current_char with
    | some c =>
      if c = '\n' then l
      else if c.isWhitespace then Lexer.skip_whitespace_go n l.advance
      else l
    | none => l

/-- Lexer.skip_whitespace: skip whitespace other than newline. -/
def Lexer.skip_whitespace (l : Lexer) : Lexer :=
  Lexer.skip_whitespace_go l.fuel l

theorem Lexer.skip_whitespace_eq_some (l : Lexer) (c : Char)
    (h : l.current_char = some c) :
    l.skip_whitespace =
      if c = '\n' then l
      else if c.isWhitespace then (l.advance).skip_whitespace
      else l := by
  unfold Lexer.skip_whitespace
  rw [Lexer.fuel_pos l c h, Lexer.skip_whitespace_go, h, Lexer.advance_fuel]

theorem Lexer.skip_whitespace_eq_none (l : Lexer)
    (h : l.current_char = none) :
    l.skip_whitespace = l := by
  unfold Lexer.skip_whitespace
  unfold Lexer.fuel
  cases hn : l.source.length + 1 - l.position with
  | zero => rfl
  | succ n => rw [Lexer.skip_whitespace_go, h]

theorem Lexer.skip_whitespace_go_source (n : Nat) :
    ∀ l : Lexer, (Lexer.skip_whitespace_go n l).source = l.source := by
  induction n with
  | zero => intro l; rfl
  | succ n ih =>
    intro l
    rw [Lexer.skip_whitespace_go]
    cases h : l.current_char with
    | some c =>
      by_cases h1 : c = '\n'
      · simp [h1]
      · by_cases h2 : c.isWhitespace
        · simp only [if_neg h1, h2, if_true]
          rw [ih, Lexer.advance_source]
        · simp [h1, h2]
    | none => rfl

theorem Lexer.skip_whitespace_go_position (n : Nat) :
    ∀ l : Lexer, l.position ≤ (Lexer.skip_whitespace_go n l).position := by
  induction n with
  | zero => intro l; exact Nat.le_refl _
  | succ n ih =>
    intro l
    rw [Lexer.skip_whitespace_go]
    cases h : l.current_char with
    | some c =>
      by_cases h1 : c = '\n'
      · simp [h1]
      · by_cases h2 : c.isWhitespace
        · simp only [if_neg h1, h2, if_true]
          have := ih l.advance
          have := Lexer.advance_position l
          omega
        · simp [h1, h2]
    | none => exact Nat.le_refl _

theorem Lexer.skip_whitespace_source (l : Lexer) :
    l.skip_whitespace.source = l.source :=
  Lexer.skip_whitespace_go_source l.fuel l

theorem Lexer.skip_whitespace_position (l : Lexer) :
    l.position ≤ l.skip_whitespace.position :=
  Lexer.skip_whitespace_go_position l.fuel l

/-- Loop body of Lexer.skip_line_comment, structurally recursive on fuel. -/
def Lexer.skip_line_comment_go : Nat → Lexer → Lexer
  | 0, l => l
  | n + 1, l =>
    match l.current_char with
    | some c =>
      if c = '\n' then l.advance
      else Lexer.skip_line_comment_go n l.advance
    | none => l

/-- Lexer.skip_line_comment: skip through and including the next newline. -/
def Lexer.skip_line_comment (l : Lexer) : Lexer :=
  Lexer.skip_line_comment_go l.fuel l

theorem Lexer.skip_line_comment_eq_some (l : Lexer) (c : Char)
    (h : l.current_char = some c) :
    l.skip_line_comment =
      if c = '\n' then l.advance
      else (l.advance).skip_line_comment := by
  unfold Lexer.skip_line_comment
  rw [Lexer.fuel_pos l c h, Lexer.skip_line_comment_go, h, Lexer.advance_fuel]

theorem Lexer.skip_line_comment_eq_none (l : Lexer)
    (h : l.current_char = none) :
    l.skip_line_comment = l := by
  unfold Lexer.skip_line_comment
  unfold Lexer.fuel
  cases hn : l.source.length + 1 - l.position with
  | zero => rfl
  | succ n => rw [Lexer.skip_line_comment_go, h]

theorem Lexer.skip_line_comment_go_source (n : Nat) :
    ∀ l : Lexer, (Lexer.skip_line_comment_go n l).source = l.source := by
  induction n with
  | zero => intro l; rfl
  | succ n ih =>
    intro l
    rw [Lexer.skip_line_comment_go]
    cases h : l.current_char with
    | some c =>
      by_cases h1 : c = '\n'
      · simp [h1, Lexer.advance_source]
      · simp only [if_neg h1]
        rw [ih, Lexer.advance_source]
    | none => rfl

theorem Lexer.skip_line_comment_go_position (n : Nat) :
    ∀ l : Lexer, l.position ≤ (Lexer.skip_line_comment_go n l).position := by
  induction n with
  | zero => intro l; exact Nat.le_refl _
  | succ n ih =>
    intro l
    rw [Lexer.skip_line_comment_go]
    cases h : l.current_char with
    | some c =>
      have := Lexer.advance_position l
      by_cases h1 : c = '\n'
      · simp only [h1, if_true]
        omega
      · simp only [if_neg h1]
        have := ih l.advance
        omega
    | none => exact Nat.le_refl _

theorem Lexer.skip_line_comment_source (l : Lexer) :
    l.skip_line_comment.source = l.source :=
  Lexer.skip_line_comment_go_source l.fuel l

theorem Lexer.skip_line_comment_position_le (l : Lexer) :
    l.position ≤ l.skip_line_comment.position :=
  Lexer.skip_line_comment_go_position l.fuel l

theorem Lexer.skip_line_comment_position (l : Lexer) (c : Char)
    (h : l.current_char = some c) :
    l.position < l.skip_line_comment.position := by
  rw [Lexer.skip_line_comment_eq_some l c h]
  have hadv := Lexer.advance_position l
  split
  · omega
  · have h2 := Lexer.skip_line_comment_position_le l.advance
    omega

/-- Loop body of Lexer.identifier, structurally recursive on fuel:
accumulate a maximal run of alphanumeric or underscore characters. -/
def Lexer.take_ident_go : Nat → Lexer → String → String × Lexer
  | 0, l, acc => (acc, l)
  | n + 1, l, acc =>
    match l.current_char with
    | some c =>
      if c.isAlphanum || c = '_' then Lexer.take_ident_go n l.advance (acc.push c)
      else (acc, l)
    | none => (acc, l)

/-- The while loop of Lexer.identifier. -/
def Lexer.take_ident (l : Lexer) (acc : String) : String × Lexer :=
  Lexer.take_ident_go l.fuel l acc

theorem Lexer.take_ident_eq_some (l : Lexer) (acc : String) (c : Char)
    (h : l.current_char = some c) :
    l.take_ident acc =
      if c.isAlphanum || c = '_' then (l.advance).take_ident (acc.push c)
      else (acc, l) := by
  unfold Lexer.take_ident
  rw [Lexer.fuel_pos l c h, Lexer.take_ident_go, h, Lexer.advance_fuel]

theorem Lexer.take_ident_eq_none (l : Lexer) (acc : String)
    (h : l.current_char = none) :
    l.take_ident acc = (acc, l) := by
  unfold Lexer.take_ident
  unfold Lexer.fuel
  cases hn : l.source.length + 1 - l.position with
  | zero => rfl
  | succ n => rw [Lexer.take_ident_go, h]

theorem Lexer.take_ident_go_source (n : Nat) :
    ∀ (l : Lexer) (acc : String), (Lexer.take_ident_go n l acc).2.source = l.source := by
  induction n with
  | zero => intro l acc; rfl
  | succ n ih =>
    intro l acc
    rw [Lexer.take_ident_go]
    cases h : l.current_char with
    | some c =>
      by_cases h1 : (c.isAlphanum || c = '_') = true
      · simp only [h1, if_true]
        rw [ih, Lexer.advance_source]
      · simp [h1]
    | none => rfl

theorem Lexer.take_ident_go_position (n : Nat) :
    ∀ (l : Lexer) (acc : String), l.position ≤ (Lexer.take_ident_go n l acc).2.position := by
  induction n with
  | zero => intro l acc; exact Nat.le_refl _
  | succ n ih =>
    intro l acc
    rw [Lexer.take_ident_go]
    cases h : l.current_char with
    | some c =>
      by_cases h1 : (c.isAlphanum || c = '_') = true
      · simp only [h1, if_true]
        have := ih l.advance (acc.push c)
        have := Lexer.advance_position l
        omega
      · simp [h1]
    | none => exact Nat.le_refl _

theorem Lexer.take_ident_go_length (n : Nat) :
    ∀ (l : Lexer) (acc : String), acc.length ≤ (Lexer.take_ident_go n l acc).1.length := by
  induction n with
  | zero => intro l acc; exact Nat.le_refl _
  | succ n ih =>
    intro l acc
    rw [Lexer.take_ident_go]
    cases h : l.current_char with
    | some c =>
      by_cases h1 : (c.isAlphanum || c = '_') = true
      · simp only [h1, if_true]
        have h2 := ih l.advance (acc.push c)
        have h3 : (acc.push c).length = acc.length + 1 := by simp
        omega
      · simp [h1]
    | none => exact Nat.le_refl _

theorem Lexer.take_ident_source (l : Lexer) (acc : String) :
    (l.take_ident acc).2.source = l.source :=
  Lexer.take_ident_go_source l.fuel l acc

theorem Lexer.take_ident_position (l : Lexer) (acc : String) :
    l.position ≤ (l.take_ident acc).2.position :=
  Lexer.take_ident_go_position l.fuel l acc

theorem Lexer.take_ident_length (l : Lexer) (acc : String) :
    acc.length ≤ (l.take_ident acc).1.length :=
  Lexer.take_ident_go_length l.fuel l acc

/-- Rust str::to_uppercase as used on identifier text: character-wise upper
casing (ASCII-faithful, and computable by the kernel). -/
def to_uppercase (s : String) : String :=
  { data := s.data.map Char.toUpper }

/-- Keyword table of Lexer.identifier: match the case-folded text against the
keywords, otherwise an Identifier carrying the original-case text. -/
def keyword_or_identifier (id_str : String) : TokenKind :=
  match to_uppercase id_str with
  | "INPUTS" => .Inputs
  | "OUTPUTS" => .Outputs
  | "IN" => .In
  | "OUT" => .Out
  | "AND" => .And
  | "OR" => .Or
  | "NOT" => .Not
  | "NAND" => .Nand
  | "NOR" => .Nor
  | "XOR" => .Xor
  | "XNOR" => .Xnor
  | "SUBCIRCUIT" => .Subcircuit
  | "END" => .End
  | _ => .Identifier id_str

/-- Lexer.identifier: scan an identifier or keyword. -/
def Lexer.identifier (l : Lexer) : Except LexerError TokenKind × Lexer :=
  let location := l.get_location
  match l.take_ident "" with
  | (id_str, l') =>
    if id_str = "" then (.error (.InvalidIdentifier id_str location), l')
    else (.ok (keyword_or_identifier id_str), l')

theorem Lexer.identifier_source (l : Lexer) :
    (l.identifier).2.source = l.source := by
  unfold Lexer.identifier
  have := Lexer.take_ident_source l ""
  split <;> split <;> simp_all

theorem Lexer.identifier_position (l : Lexer) :
    l.position ≤ (l.identifier).2.position := by
  unfold Lexer.identifier
  have := Lexer.take_ident_position l ""
  split <;> split <;> simp_all

/-- When the current character is alphabetic (the only way get_next_token
invokes identifier), the scan accepts at least one character and produces a
token: the InvalidIdentifier branch is not taken. -/
theorem Lexer.identifier_ok (l : Lexer) (c : Char) (h : l.current_char = some c)
    (hc : c.isAlpha = true) :
    l.identifier = (.ok (keyword_or_identifier (l.take_ident "").1), (l.take_ident "").2)
      ∧ l.position < (l.take_ident "").2.position := by
  have hcond : (c.isAlphanum || c = '_') = true := by
    simp [Char.isAlphanum, hc]
  have hne : (l.take_ident "").1 ≠ "" := by
    rw [Lexer.take_ident_eq_some l "" c h]
    simp only [hcond, if_true]
    have hlen := Lexer.take_ident_length l.advance ("".push c)
    intro he
    rw [he] at hlen
    simp at hlen
  have hpos : l.position < (l.take_ident "").2.position := by
    rw [Lexer.take_ident_eq_some l "" c h]
    simp only [hcond, if_true]
    have := Lexer.take_ident_position l.advance ("".push c)
    have := Lexer.advance_position l
    omega
  refine ⟨?_, hpos⟩
  unfold Lexer.identifier
  split
  next id_str l' heq =>
    have hne2 : id_str ≠ "" := by rw [heq] at hne; simpa using hne
    simp [if_neg hne2, heq]

/-- Recursion body of Lexer.get_next_token, structurally recursive on fuel
(the recursion re-enters after a line comment).  The zero-fuel value agrees
with the real behaviour there, since zero fuel means the position is past
the end of the source. -/
def Lexer.get_next_token_go : Nat → Lexer → Except LexerError TokenKind × Lexer
  | 0, l => (.ok .EOF, l.skip_whitespace)
  | n + 1, l =>
    match (l.skip_whitespace).current_char with
    | none => (.ok .EOF, l.skip_whitespace)
    | some c =>
      if c.isAlpha then (l.skip_whitespace).identifier
      else if c = '#' then
        Lexer.get_next_token_go n ((l.skip_whitespace).skip_line_comment)
      else if c = ',' then (.ok .Comma, (l.skip_whitespace).advance)
      else if c = '(' then (.ok .ParenOpen, (l.skip_whitespace).advance)
      else if c = ')' then (.ok .ParenClose, (l.skip_whitespace).advance)
      else if c = '\n' then (.ok .Newline, (l.skip_whitespace).advance)
      else (.error (.UnexpectedCharacter c (l.skip_whitespace).get_location),
            l.skip_whitespace)

/-- Lexer.get_next_token: skip whitespace, then dispatch on the current
character (lang.rs lines 120-143). -/
def Lexer.get_next_token (l : Lexer) : Except LexerError TokenKind × Lexer :=
  Lexer.get_next_token_go l.fuel l

theorem Lexer.fuel_zero_current (l : Lexer) (h : l.fuel = 0) :
    l.skip_whitespace.current_char = none := by
  have h1 : l.current_char = none := by
    apply Lexer.current_char_none
    unfold Lexer.fuel at h
    omega
  rw [Lexer.skip_whitespace_eq_none l h1, h1]

theorem Lexer.get_next_token_go_irrel (f : Nat) :
    ∀ l : Lexer, l.fuel ≤ f →
      Lexer.get_next_token_go f l = Lexer.get_next_token_go l.fuel l := by
  induction f using Nat.strong_induction_on with
  | _ f ih =>
    intro l hf
    match f with
    | 0 =>
      have h0 : l.fuel = 0 := Nat.le_zero.mp hf
      rw [h0]
    | f + 1 =>
      cases h0 : l.fuel with
      | zero =>
        have hc := Lexer.fuel_zero_current l h0
        conv_lhs => rw [Lexer.get_next_token_go]
        rw [hc]
        rfl
      | succ m =>
        conv_lhs => rw [Lexer.get_next_token_go]
        conv_rhs => rw [Lexer.get_next_token_go]
        cases hc : l.skip_whitespace.current_char with
        | none => rfl
        | some c =>
          dsimp only []
          by_cases h1 : c.isAlpha = true
          · simp only [if_pos h1]
          · by_cases h2 : c = '#'
            · simp only [if_neg h1, if_pos h2]
              have hslc : (l.skip_whitespace.skip_line_comment).fuel ≤ m := by
                have ha := Lexer.skip_whitespace_position l
                have hb := Lexer.skip_line_comment_position l.skip_whitespace c hc
                have hc1 := Lexer.skip_whitespace_source l
                have hc2 := Lexer.skip_line_comment_source l.skip_whitespace
                unfold Lexer.fuel at h0 ⊢
                rw [hc2, hc1]
                omega
              rw [ih f (Nat.lt_succ_self f) _ (le_trans hslc (by omega)),
                ih m (by omega) _ hslc]
            · by_cases h3 : c = ','
              · simp only [if_neg h1, if_neg h2, if_pos h3]
              · by_cases h4 : c = '('
                · simp only [if_neg h1, if_neg h2, if_neg h3, if_pos h4]
                · by_cases h5 : c = ')'
                  · simp only [if_neg h1, if_neg h2, if_neg h3, if_neg h4, if_pos h5]
                  · by_cases h6 : c = '\n'
                    · simp only [if_neg h1, if_neg h2, if_neg h3, if_neg h4, if_neg h5,
                        if_pos h6]
                    · simp only [if_neg h1, if_neg h2, if_neg h3, if_neg h4, if_neg h5,
                        if_neg h6]

theorem Lexer.get_next_token_eq_none (l : Lexer)
    (h : l.skip_whitespace.current_char = none) :
    l.get_next_token = (.ok .EOF, l.skip_whitespace) := by
  unfold Lexer.get_next_token
  cases hn : l.fuel with
  | zero => rfl
  | succ n =>
    conv_lhs => rw [Lexer.get_next_token_go]
    rw [h]

theorem Lexer.get_next_token_eq_some (l : Lexer) (c : Char)
    (h : l.skip_whitespace.current_char = some c) :
    l.get_next_token =
      (if c.isAlpha then (l.skip_whitespace).identifier
       else if c = '#' then ((l.skip_whitespace).skip_line_comment).get_next_token
       else if c = ',' then (.ok .Comma, (l.skip_whitespace).advance)
       else if c = '(' then (.ok .ParenOpen, (l.skip_whitespace).advance)
       else if c = ')' then (.ok .ParenClose, (l.skip_whitespace).advance)
       else if c = '\n' then (.ok .Newline, (l.skip_whitespace).advance)
       else (.error (.UnexpectedCharacter c (l.skip_whitespace).get_location),
             l.skip_whitespace)) := by
  have hswp : l.position ≤ l.skip_whitespace.position := Lexer.skip_whitespace_position l
  have hsws : l.skip_whitespace.source = l.source := Lexer.skip_whitespace_source l
  have hlt : l.skip_whitespace.position < l.source.length := by
    have := Lexer.current_char_lt _ c h
    rwa [hsws] at this
  have hf : l.fuel = (l.fuel - 1) + 1 := by
    unfold Lexer.fuel
    omega
  have hslc : (l.skip_whitespace.skip_line_comment).fuel ≤ l.fuel - 1 := by
    have ha := Lexer.skip_line_comment_position l.skip_whitespace c h
    have hb := Lexer.skip_line_comment_source l.skip_whitespace
    unfold Lexer.fuel
    rw [hb, hsws]
    omega
  unfold Lexer.get_next_token
  conv_lhs => rw [hf, Lexer.get_next_token_go]
  rw [h, Lexer.get_next_token_go_irrel (l.fuel - 1) _ hslc]

theorem Lexer.get_next_token_source (l : Lexer) :
    (l.get_next_token).2.source = l.source := by
  have hgen : ∀ f : Nat, ∀ l : Lexer, (Lexer.get_next_token_go f l).2.source = l.source := by
    intro f
    induction f with
    | zero => intro l; exact Lexer.skip_whitespace_source l
    | succ n ih =>
      intro l
      conv_lhs => rw [Lexer.get_next_token_go]
      cases hc : l.skip_whitespace.current_char with
      | none => exact Lexer.skip_whitespace_source l
      | some c =>
        dsimp only []
        have hadv : l.skip_whitespace.advance.source = l.source := by
          rw [Lexer.advance_source, Lexer.skip_whitespace_source]
        by_cases h1 : c.isAlpha = true
        · simp only [if_pos h1]
          rw [Lexer.identifier_source, Lexer.skip_whitespace_source]
        · by_cases h2 : c = '#'
          · simp only [if_neg h1, if_pos h2]
            rw [ih, Lexer.skip_line_comment_source, Lexer.skip_whitespace_source]
          · by_cases h3 : c = ','
            · simp only [if_neg h1, if_neg h2, if_pos h3]
              exact hadv
            · by_cases h4 : c = '('
              · simp only [if_neg h1, if_neg h2, if_neg h3, if_pos h4]
                exact hadv
              · by_cases h5 : c = ')'
                · simp only [if_neg h1, if_neg h2, if_neg h3, if_neg h4, if_pos h5]
                  exact hadv
                · by_cases h6 : c = '\n'
                  · simp only [if_neg h1, if_neg h2, if_neg h3, if_neg h4, if_neg h5,
                      if_pos h6]
                    exact hadv
                  · simp only [if_neg h1, if_neg h2, if_neg h3, if_neg h4, if_neg h5,
                      if_neg h6]
                    exact Lexer.skip_whitespace_source l
  exact hgen l.fuel l

theorem Lexer.get_next_token_progress (l : Lexer) (t : TokenKind) (l' : Lexer)
    (hgt : l.get_next_token = (.ok t, l')) (ht : t ≠ .EOF) :
    l.position < l'.position ∧ l.position < l.source.length := by
  have hgen : ∀ f : Nat, ∀ (l : Lexer) (t : TokenKind) (l' : Lexer),
      Lexer.get_next_token_go f l = (.ok t, l') → t ≠ .EOF →
      l.position < l'.position ∧ l.position < l.source.length := by
    intro f
    induction f with
    | zero =>
      intro l t l' hgt ht
      have hgt2 : (Except.ok TokenKind.EOF : Except LexerError TokenKind) = .ok t :=
        congrArg Prod.fst hgt
      injection hgt2 with ha
      exact absurd ha.symm ht
    | succ n ih =>
      intro l t l' hgt ht
      conv_lhs at hgt => rw [Lexer.get_next_token_go]
      have hswp := Lexer.skip_whitespace_position l
      have hsws := Lexer.skip_whitespace_source l
      cases hc : l.skip_whitespace.current_char with
      | none =>
        rw [hc] at hgt
        have hgt2 : (Except.ok TokenKind.EOF : Except LexerError TokenKind) = .ok t :=
          congrArg Prod.fst hgt
        injection hgt2 with ha
        exact absurd ha.symm ht
      | some c =>
        rw [hc] at hgt
        dsimp only [] at hgt
        have hcur : l.skip_whitespace.position < l.source.length := by
          have := Lexer.current_char_lt _ c hc
          rwa [hsws] at this
        by_cases h1 : c.isAlpha = true
        · rw [if_pos h1] at hgt
          have hio := Lexer.identifier_ok l.skip_whitespace c hc h1
          rw [hio.1] at hgt
          injection hgt with ha hb
          have := hio.2
          subst hb
          omega
        · by_cases h2 : c = '#'
          · rw [if_neg h1, if_pos h2] at hgt
            have hr := ih _ t l' hgt ht
            have ha := Lexer.skip_line_comment_position l.skip_whitespace c hc
            have hb := Lexer.skip_line_comment_source l.skip_whitespace
            omega
          · have hadv := Lexer.advance_position l.skip_whitespace
            by_cases h3 : c = ','
            · simp only [if_neg h1, if_neg h2, if_pos h3] at hgt
              injection hgt with ha hb
              subst hb
              omega
            · by_cases h4 : c = '('
              · simp only [if_neg h1, if_neg h2, if_neg h3, if_pos h4] at hgt
                injection hgt with ha hb
                subst hb
                omega
              · by_cases h5 : c = ')'
                · simp only [if_neg h1, if_neg h2, if_neg h3, if_neg h4, if_pos h5] at hgt
                  injection hgt with ha hb
                  subst hb
                  omega
                · by_cases h6 : c = '\n'
                  · simp only [if_neg h1, if_neg h2, if_neg h3, if_neg h4, if_neg h5,
                      if_pos h6] at hgt
                    injection hgt with ha hb
                    subst hb
                    omega
                  · simp only [if_neg h1, if_neg h2, if_neg h3, if_neg h4, if_neg h5,
                      if_neg h6] at hgt
                    have hgt2 := congrArg Prod.fst hgt
                    simp at hgt2
  exact hgen l.fuel l t l' hgt ht

/-- Modelled from the spec: the driver that materializes the scanner's token
stream for the parser (the repository's src/ holds only lang.rs, no main):
get_next_token is called repeatedly, each token collected in order, up to
and including the final EndOfInput token; a lexical error aborts the stream.
The zero-fuel value agrees with the real behaviour there, since zero fuel
means the position is past the end of the source. -/
def Lexer.tokenize_go : Nat → Lexer → Except LexerError (List TokenKind)
  | 0, _ => .ok [.EOF]
  | n + 1, l =>
    match l.get_next_token with
    | (.error e, _) => .error e
    | (.ok t, l') =>
      if t = .EOF then .ok [.EOF]
      else
        match Lexer.tokenize_go n l' with
        | .ok ts => .ok (t :: ts)
        | .error e => .error e

/-- Modelled from the spec: the materialized token stream of a lexer state. -/
def Lexer.tokenize (l : Lexer) : Except LexerError (List TokenKind) :=
  Lexer.tokenize_go l.fuel l

theorem Lexer.tokenize_go_irrel (f : Nat) :
    ∀ l : Lexer, l.fuel ≤ f →
      Lexer.tokenize_go f l = Lexer.tokenize_go l.fuel l := by
  induction f using Nat.strong_induction_on with
  | _ f ih =>
    intro l hf
    match f with
    | 0 =>
      have h0 : l.fuel = 0 := Nat.le_zero.mp hf
      rw [h0]
    | f + 1 =>
      cases h0 : l.fuel with
      | zero =>
        have hc := Lexer.fuel_zero_current l h0
        conv_lhs => rw [Lexer.tokenize_go]
        rw [Lexer.get_next_token_eq_none l hc]
        rfl
      | succ m =>
        conv_lhs => rw [Lexer.tokenize_go]
        conv_rhs => rw [Lexer.tokenize_go]
        cases hgt : l.get_next_token with
        | mk r l2 =>
          cases r with
          | error e => rfl
          | ok t =>
            by_cases ht : t = .EOF
            · simp [ht]
            · have hp := Lexer.get_next_token_progress l t l2 hgt ht
              have hs : l2.source = l.source := by
                have := Lexer.get_next_token_source l
                rw [hgt] at this
                exact this
              have hl2 : l2.fuel ≤ m := by
                unfold Lexer.fuel at h0 ⊢
                rw [hs]
                omega
              simp only [if_neg ht]
              rw [ih f (Nat.lt_succ_self f) l2 (le_trans hl2 (by omega)),
                ih m (by omega) l2 hl2]

theorem Lexer.tokenize_eq_error (l : Lexer) (e : LexerError) (l' : Lexer)
    (h : l.get_next_token = (.error e, l')) :
    l.tokenize = .error e := by
  unfold Lexer.tokenize
  cases hn : l.fuel with
  | zero =>
    have hc := Lexer.fuel_zero_current l hn
    rw [Lexer.get_next_token_eq_none l hc] at h
    exact absurd (congrArg Prod.fst h) (by simp)
  | succ n =>
    conv_lhs => rw [Lexer.tokenize_go]
    rw [h]

theorem Lexer.tokenize_eq_eof (l : Lexer) (l' : Lexer)
    (h : l.get_next_token = (.ok .EOF, l')) :
    l.tokenize = .ok [.EOF] := by
  unfold Lexer.tokenize
  cases hn : l.fuel with
  | zero => rfl
  | succ n =>
    conv_lhs => rw [Lexer.tokenize_go]
    rw [h]
    simp

theorem Lexer.tokenize_eq_cons (l : Lexer) (t : TokenKind) (l' : Lexer)
    (h : l.get_next_token = (.ok t, l')) (ht : t ≠ .EOF) :
    l.tokenize =
      match l'.tokenize with
      | .ok ts => .ok (t :: ts)
      | .error e => .error e := by
  have hp := Lexer.get_next_token_progress l t l' h ht
  have hs : l'.source = l.source := by
    have := Lexer.get_next_token_source l
    rw [h] at this
    exact this
  have hfp : l.fuel = (l.fuel - 1) + 1 := by
    unfold Lexer.fuel
    omega
  have hl' : l'.fuel ≤ l.fuel - 1 := by
    unfold Lexer.fuel
    rw [hs]
    omega
  unfold Lexer.tokenize
  conv_lhs => rw [hfp, Lexer.tokenize_go]
  rw [h]
  simp only [if_neg ht]
  rw [Lexer.tokenize_go_irrel (l.fuel - 1) l' hl']

/-- Gate types (lang.rs `GateType`). -/
inductive GateType where
  | And
  | Or
  | Not
  | Nand
  | Nor
  | Xor
  | Xnor
  | Subcircuit (name : String)
deriving DecidableEq, Repr

/-- One instantiated gate or subcircuit call (lang.rs `Component`). -/
structure Component where
  gate_type : GateType
  identifier : String
  inputs : List String
  outputs : List String
deriving DecidableEq, Repr

/-- A named reusable circuit definition (lang.rs `Subcircuit`). -/
structure Subcircuit where
  name : String
  inputs : List String
  outputs : List String
  components : List Component
deriving DecidableEq, Repr

/-- The parse result (lang.rs `Program`).  The Rust `HashMap<String, Subcircuit>`
is modelled as an association list with `HashMap::insert` semantics:
`hashmap_insert` replaces the value when the key is present, else appends. -/
structure Program where
  subcircuits : List (String × Subcircuit)
  inputs : List String
  outputs : List String
  components : List Component
deriving DecidableEq, Repr

/-- HashMap::insert on the association-list model: overwrite the existing
binding of the key, or append a new one. -/
def hashmap_insert (m : List (String × Subcircuit)) (k : String) (v : Subcircuit) :
    List (String × Subcircuit) :=
  if m.any (fun q => q.1 = k) then
    m.map (fun q => if q.1 = k then (k, v) else q)
  else m ++ [(k, v)]

/-- Rust {:?} rendering of a token, as used in parser error messages. -/
def TokenKind.debug_fmt : TokenKind → String
  | .Inputs => "Inputs"
  | .Outputs => "Outputs"
  | .In => "In"
  | .Out => "Out"
  | .Comma => "Comma"
  | .ParenOpen => "ParenOpen"
  | .ParenClose => "ParenClose"
  | .Newline => "Newline"
  | .EOF => "EOF"
  | .And => "And"
  | .Or => "Or"
  | .Not => "Not"
  | .Nand => "Nand"
  | .Nor => "Nor"
  | .Xor => "Xor"
  | .Xnor => "Xnor"
  | .Subcircuit => "Subcircuit"
  | .End => "End"
  | .Identifier s => "Identifier(\"" ++ s ++ "\")"

/-- Rust {:?} rendering of an Option of a token. -/
def option_token_fmt : Option TokenKind → String
  | none => "None"
  | some t => "Some(" ++ t.debug_fmt ++ ")"

/-- The parser state (lang.rs `Parser`): the token list and a cursor. -/
structure Parser where
  tokens : List TokenKind
  position : Nat
deriving DecidableEq, Repr

/-- Parser.new. -/
def Parser.new (tokens : List TokenKind) : Parser :=
  { tokens := tokens, position := 0 }

/-- Parser.current_token: `self.tokens.get(self.position)`. -/
def Parser.current_token (p : Parser) : Option TokenKind :=
  p.tokens.get? p.position

/-- Parser.advance. -/
def Parser.advance (p : Parser) : Parser :=
  { p with position := p.position + 1 }

/-- The fuel every fuelled parser loop below starts with. -/
def Parser.fuel (p : Parser) : Nat :=
  p.tokens.length + 1 - p.position

theorem Parser.advance_tokens (p : Parser) : p.advance.tokens = p.tokens := rfl

theorem Parser.advance_position_succ (p : Parser) : p.advance.position = p.position + 1 := rfl

theorem Parser.advance_fuel_dec (p : Parser) : p.advance.fuel = p.fuel - 1 := by
  unfold Parser.fuel
  rw [Parser.advance_tokens, Parser.advance_position_succ]
  omega

theorem Parser.current_token_lt (p : Parser) (t : TokenKind)
    (h : p.current_token = some t) :
    p.position < p.tokens.length := by
  unfold Parser.current_token at h
  exact (List.get?_eq_some.mp h).1

theorem Parser.current_token_none (p : Parser) (h : p.tokens.length ≤ p.position) :
    p.current_token = none := by
  unfold Parser.current_token
  exact List.get?_eq_none.mpr h

theorem Parser.fuel_pos_succ (p : Parser) (t : TokenKind) (h : p.current_token = some t) :
    p.fuel = (p.fuel - 1) + 1 := by
  have := Parser.current_token_lt p t h
  unfold Parser.fuel
  omega

theorem Parser.fuel_zero_current_none (p : Parser) (h : p.fuel = 0) :
    p.current_token = none := by
  apply Parser.current_token_none
  unfold Parser.fuel at h
  omega

/-- Parser.expect (lang.rs lines 259-270). -/
def Parser.expect (p : Parser) (expected : TokenKind) : Except String Unit × Parser :=
  match p.current_token with
  | some token =>
    if token = expected then (.ok (), p.advance)
    else (.error ("Expected " ++ expected.debug_fmt ++ ", found " ++ token.debug_fmt), p)
  | none => (.error ("Unexpected end of input, expected " ++ expected.debug_fmt), p)

/-- The leading newline-skipping loop of parse_inputs_section (fuelled). -/
def Parser.skip_newlines_go : Nat → Parser → Parser
  | 0, p => p
  | n + 1, p =>
    if p.current_token = some .Newline then Parser.skip_newlines_go n p.advance
    else p

/-- The leading newline-skipping loop of parse_inputs_section. -/
def Parser.skip_newlines (p : Parser) : Parser :=
  Parser.skip_newlines_go p.fuel p

/-- The item loop of parse_inputs_section (fuelled): identifiers are
collected, commas skipped, a newline ends the list, anything else is an
error.  The zero-fuel value agrees with the real behaviour there, since
zero fuel means there is no current token, which falls to the error arm. -/
def Parser.inputs_loop_go : Nat → Parser → List String → Except String (List String) × Parser
  | 0, p, _ =>
    (.error ("Unexpected token in INPUTS section: " ++ option_token_fmt p.current_token), p)
  | n + 1, p, inputs =>
    match p.current_token with
    | some (.Identifier name) => Parser.inputs_loop_go n p.advance (inputs ++ [name])
    | some .Comma => Parser.inputs_loop_go n p.advance inputs
    | some .Newline => (.ok inputs, p.advance)
    | _ =>
      (.error ("Unexpected token in INPUTS section: " ++ option_token_fmt p.current_token), p)

/-- The item loop of parse_inputs_section. -/
def Parser.inputs_loop (p : Parser) (inputs : List String) :
    Except String (List String) × Parser :=
  Parser.inputs_loop_go p.fuel p inputs

/-- Rust's ? operator on a (result, parser-state) pair: an error propagates
unchanged with the state at the failure site, a success feeds value and
state to the continuation. -/
def pbind {A B : Type} (r : Except String A × Parser)
    (g : A → Parser → Except String B × Parser) : Except String B × Parser :=
  match r with
  | (.error e, p1) => (.error e, p1)
  | (.ok x, p1) => g x p1

/-- Parser.parse_inputs_section (lang.rs lines 329-358): skip leading
newlines, expect INPUTS, then collect the item list. -/
def Parser.parse_inputs_section (p : Parser) : Except String (List String) × Parser :=
  pbind ((p.skip_newlines).expect .Inputs) fun _ p1 =>
  p1.inputs_loop []

/-- The item loop of parse_outputs_section (fuelled), identical in shape to
the INPUTS loop but with the OUTPUTS error message. -/
def Parser.outputs_loop_go : Nat → Parser → List String → Except String (List String) × Parser
  | 0, p, _ =>
    (.error ("Unexpected token in OUTPUTS section: " ++ option_token_fmt p.current_token), p)
  | n + 1, p, inputs =>
    match p.current_token with
    | some (.Identifier name) => Parser.outputs_loop_go n p.advance (inputs ++ [name])
    | some .Comma => Parser.outputs_loop_go n p.advance inputs
    | some .Newline => (.ok inputs, p.advance)
    | _ =>
      (.error ("Unexpected token in OUTPUTS section: " ++ option_token_fmt p.current_token), p)

/-- The item loop of parse_outputs_section. -/
def Parser.outputs_loop (p : Parser) (inputs : List String) :
    Except String (List String) × Parser :=
  Parser.outputs_loop_go p.fuel p inputs

/-- Parser.parse_outputs_section (lang.rs lines 362-382): expect OUTPUTS as
the immediately current token (no newline skipping), then collect the item
list. -/
def Parser.parse_outputs_section (p : Parser) : Except String (List String) × Parser :=
  pbind (p.expect .Outputs) fun _ p1 =>
  p1.outputs_loop []

/-- The IN(...)/OUT(...) identifier-list while loop of parse_component
(fuelled): take an identifier, then continue only past a comma.  The
zero-fuel value agrees with the real behaviour there, since zero fuel means
there is no current token, which exits the loop. -/
def Parser.id_list_go : Nat → Parser → List String → List String × Parser
  | 0, p, acc => (acc, p)
  | n + 1, p, acc =>
    match p.current_token with
    | some (.Identifier name) =>
      match (p.advance).current_token with
      | some .Comma => Parser.id_list_go n ((p.advance).advance) (acc ++ [name])
      | _ => (acc ++ [name], p.advance)
    | _ => (acc, p)

/-- The IN(...)/OUT(...) identifier-list while loop of parse_component. -/
def Parser.id_list (p : Parser) (acc : List String) : List String × Parser :=
  Parser.id_list_go p.fuel p acc

/-- The gate-type match at the head of parse_component (lang.rs lines
408-423). -/
def Parser.gate_type_of : Option TokenKind → Except String GateType
  | some .And => .ok .And
  | some .Or => .ok .Or
  | some .Not => .ok .Not
  | some .Nand => .ok .Nand
  | some .Nor => .ok .Nor
  | some .Xor => .ok .Xor
  | some .Xnor => .ok .Xnor
  | some (.Identifier name) => .ok (.Subcircuit name)
  | t => .error ("Unexpected token for gate type: " ++ option_token_fmt t)

/-- The straight-line tail of parse_component after the gate type and
instance identifier are determined (lang.rs lines 439-478):
IN ( id_list ) OUT ( id_list ), then the Component value. -/
def Parser.parse_component_ports (gate_type : GateType) (identifier : String)
    (p : Parser) : Except String Component × Parser :=
  pbind (p.expect .In) fun _ p1 =>
  pbind (p1.expect .ParenOpen) fun _ p2 =>
  pbind ((p2.id_list []).2.expect .ParenClose) fun _ p4 =>
  pbind (p4.expect .Out) fun _ p5 =>
  pbind (p5.expect .ParenOpen) fun _ p6 =>
  pbind ((p6.id_list []).2.expect .ParenClose) fun _ p8 =>
  (.ok { gate_type := gate_type, identifier := identifier,
         inputs := (p2.id_list []).1, outputs := (p6.id_list []).1 }, p8)

/-- Parser.parse_component (lang.rs lines 406-478): the gate-type match,
the advance past it, the gate-type-conditional instance identifier, then
the port lists. -/
def Parser.parse_component (p : Parser) : Except String Component × Parser :=
  match Parser.gate_type_of p.current_token with
  | .error e => (.error e, p)
  | .ok gate_type =>
    match gate_type with
    | .Subcircuit _ => Parser.parse_component_ports gate_type "" p.advance
    | _ =>
      match (p.advance).current_token with
      | some (.Identifier name) =>
        Parser.parse_component_ports gate_type name ((p.advance).advance)
      | _ => (.error "Expected identifier for component", p.advance)

/-- The loop of parse_component_list (fuelled, lang.rs lines 386-404).  The
zero-fuel value agrees with the real behaviour there, since zero fuel means
there is no current token, which exits the while-let. -/
def Parser.component_list_go : Nat → Parser → List Component →
    Except String (List Component) × Parser
  | 0, p, components => (.ok components, p)
  | n + 1, p, components =>
    match p.current_token with
    | some t =>
      match t with
      | .And | .Or | .Not | .Nand | .Nor | .Xor | .Xnor | .Identifier _ =>
        pbind p.parse_component fun comp p' =>
        Parser.component_list_go n p' (components ++ [comp])
      | .Newline => Parser.component_list_go n p.advance components
      | .End | .EOF => (.ok components, p)
      | _ =>
        (.error ("Unexpected token in component list: " ++
          option_token_fmt p.current_token), p)
    | none => (.ok components, p)

/-- The loop of parse_component_list with its accumulator. -/
def Parser.component_loop (p : Parser) (components : List Component) :
    Except String (List Component) × Parser :=
  Parser.component_list_go p.fuel p components

/-- Parser.parse_component_list (lang.rs lines 386-404). -/
def Parser.parse_component_list (p : Parser) : Except String (List Component) × Parser :=
  p.component_loop []

/-- Parser.parse_subcircuit (lang.rs lines 297-325). -/
def Parser.parse_subcircuit (p : Parser) : Except String Subcircuit × Parser :=
  pbind (p.expect .Subcircuit) fun _ p1 =>
  match p1.current_token with
  | some (.Identifier name) =>
    pbind ((p1.advance).expect .Newline) fun _ p2 =>
    pbind p2.parse_inputs_section fun inputs p3 =>
    pbind p3.parse_outputs_section fun outputs p4 =>
    pbind p4.parse_component_list fun components p5 =>
    pbind (p5.expect .End) fun _ p6 =>
    pbind (p6.expect .Newline) fun _ p7 =>
    (.ok { name := name, inputs := inputs, outputs := outputs,
           components := components }, p7)
  | _ => (.error "Expected subcircuit name", p1)

/-- The subcircuit-collection loop at the head of parse_program (fuelled,
lang.rs lines 279-287).  The zero-fuel value agrees with the real behaviour
there, since zero fuel means there is no current token, which exits the
while-let. -/
def Parser.subcircuits_go : Nat → Parser → List (String × Subcircuit) →
    Except String (List (String × Subcircuit)) × Parser
  | 0, p, acc => (.ok acc, p)
  | n + 1, p, acc =>
    match p.current_token with
    | some .Subcircuit =>
      pbind p.parse_subcircuit fun sc p' =>
      Parser.subcircuits_go n p' (hashmap_insert acc sc.name sc)
    | _ => (.ok acc, p)

/-- The subcircuit-collection loop at the head of parse_program. -/
def Parser.parse_subcircuits (p : Parser) (acc : List (String × Subcircuit)) :
    Except String (List (String × Subcircuit)) × Parser :=
  Parser.subcircuits_go p.fuel p acc

/-- Parser.parse_program (lang.rs lines 274-293): subcircuits first, then
the top-level INPUTS section, OUTPUTS section and component list. -/
def Parser.parse_program (p : Parser) : Except String Program × Parser :=
  pbind (p.parse_subcircuits []) fun subcircuits p1 =>
  pbind p1.parse_inputs_section fun inputs p2 =>
  pbind p2.parse_outputs_section fun outputs p3 =>
  pbind p3.parse_component_list fun components p4 =>
  (.ok { subcircuits := subcircuits, inputs := inputs, outputs := outputs,
         components := components }, p4)

theorem Parser.expect_tokens (p : Parser) (t : TokenKind) :
    (p.expect t).2.tokens = p.tokens := by
  unfold Parser.expect
  split
  · split <;> rfl
  · rfl

theorem Parser.expect_position_le (p : Parser) (t : TokenKind) :
    p.position ≤ (p.expect t).2.position := by
  unfold Parser.expect
  split
  · split
    · rw [Parser.advance_position_succ]; omega
    · exact Nat.le_refl _
  · exact Nat.le_refl _

theorem Parser.expect_eq_ok (p : Parser) (t : TokenKind)
    (h : p.current_token = some t) :
    p.expect t = (.ok (), p.advance) := by
  unfold Parser.expect
  rw [h]
  simp

theorem Parser.expect_ok_current (p : Parser) (t : TokenKind) (q : Parser)
    (h : p.expect t = (.ok (), q)) :
    p.current_token = some t ∧ q = p.advance := by
  unfold Parser.expect at h
  split at h
  next tok hc =>
    split at h
    next he =>
      subst he
      exact ⟨hc, (Prod.mk.injEq _ _ _ _ ▸ h).2.symm⟩
    next he => simp at h
  next hc => simp at h

theorem Parser.skip_newlines_eq_newline (p : Parser)
    (h : p.current_token = some .Newline) :
    p.skip_newlines = p.advance.skip_newlines := by
  unfold Parser.skip_newlines
  rw [Parser.fuel_pos_succ p .Newline h, Parser.skip_newlines_go, if_pos h, Parser.advance_fuel_dec]

theorem Parser.skip_newlines_eq_stop (p : Parser)
    (h : p.current_token ≠ some .Newline) :
    p.skip_newlines = p := by
  unfold Parser.skip_newlines
  cases hf : p.fuel with
  | zero => rfl
  | succ n => rw [Parser.skip_newlines_go, if_neg h]

theorem Parser.skip_newlines_go_tokens (n : Nat) :
    ∀ p : Parser, (Parser.skip_newlines_go n p).tokens = p.tokens := by
  induction n with
  | zero => intro p; rfl
  | succ n ih =>
    intro p
    rw [Parser.skip_newlines_go]
    split
    · rw [ih, Parser.advance_tokens]
    · rfl

theorem Parser.skip_newlines_go_position (n : Nat) :
    ∀ p : Parser, p.position ≤ (Parser.skip_newlines_go n p).position := by
  induction n with
  | zero => intro p; exact Nat.le_refl _
  | succ n ih =>
    intro p
    rw [Parser.skip_newlines_go]
    split
    · have := ih p.advance
      have := Parser.advance_position_succ p
      omega
    · exact Nat.le_refl _

theorem Parser.skip_newlines_tokens (p : Parser) :
    p.skip_newlines.tokens = p.tokens :=
  Parser.skip_newlines_go_tokens p.fuel p

theorem Parser.skip_newlines_position (p : Parser) :
    p.position ≤ p.skip_newlines.position :=
  Parser.skip_newlines_go_position p.fuel p

theorem Parser.skip_newlines_current (p : Parser) :
    p.skip_newlines.current_token ≠ some .Newline := by
  have hgen : ∀ n : Nat, ∀ p : Parser, p.fuel ≤ n →
      (Parser.skip_newlines_go n p).current_token ≠ some .Newline := by
    intro n
    induction n with
    | zero =>
      intro p hf
      have h0 : p.fuel = 0 := Nat.le_zero.mp hf
      have := Parser.fuel_zero_current_none p h0
      rw [Parser.skip_newlines_go]
      rw [this]
      simp
    | succ n ih =>
      intro p hf
      rw [Parser.skip_newlines_go]
      split
      next h =>
        apply ih
        rw [Parser.advance_fuel_dec]
        omega
      next h => exact h
  exact hgen p.fuel p (Nat.le_refl _)

theorem Parser.inputs_loop_eq_ident (p : Parser) (acc : List String) (nm : String)
    (h : p.current_token = some (.Identifier nm)) :
    p.inputs_loop acc = p.advance.inputs_loop (acc ++ [nm]) := by
  unfold Parser.inputs_loop
  rw [Parser.fuel_pos_succ p _ h, Parser.inputs_loop_go, h, Parser.advance_fuel_dec]

theorem Parser.inputs_loop_eq_comma (p : Parser) (acc : List String)
    (h : p.current_token = some .Comma) :
    p.inputs_loop acc = p.advance.inputs_loop acc := by
  unfold Parser.inputs_loop
  rw [Parser.fuel_pos_succ p _ h, Parser.inputs_loop_go, h, Parser.advance_fuel_dec]

theorem Parser.inputs_loop_eq_newline (p : Parser) (acc : List String)
    (h : p.current_token = some .Newline) :
    p.inputs_loop acc = (.ok acc, p.advance) := by
  unfold Parser.inputs_loop
  rw [Parser.fuel_pos_succ p _ h, Parser.inputs_loop_go, h]

theorem Parser.inputs_loop_eq_none (p : Parser) (acc : List String)
    (h : p.current_token = none) :
    p.inputs_loop acc =
      (.error ("Unexpected token in INPUTS section: " ++ option_token_fmt p.current_token),
       p) := by
  unfold Parser.inputs_loop
  cases hf : p.fuel with
  | zero => rfl
  | succ n => rw [Parser.inputs_loop_go, h]

theorem Parser.outputs_loop_eq_ident (p : Parser) (acc : List String) (nm : String)
    (h : p.current_token = some (.Identifier nm)) :
    p.outputs_loop acc = p.advance.outputs_loop (acc ++ [nm]) := by
  unfold Parser.outputs_loop
  rw [Parser.fuel_pos_succ p _ h, Parser.outputs_loop_go, h, Parser.advance_fuel_dec]

theorem Parser.outputs_loop_eq_comma (p : Parser) (acc : List String)
    (h : p.current_token = some .Comma) :
    p.outputs_loop acc = p.advance.outputs_loop acc := by
  unfold Parser.outputs_loop
  rw [Parser.fuel_pos_succ p _ h, Parser.outputs_loop_go, h, Parser.advance_fuel_dec]

theorem Parser.outputs_loop_eq_newline (p : Parser) (acc : List String)
    (h : p.current_token = some .Newline) :
    p.outputs_loop acc = (.ok acc, p.advance) := by
  unfold Parser.outputs_loop
  rw [Parser.fuel_pos_succ p _ h, Parser.outputs_loop_go, h]

theorem Parser.outputs_loop_eq_none (p : Parser) (acc : List String)
    (h : p.current_token = none) :
    p.outputs_loop acc =
      (.error ("Unexpected token in OUTPUTS section: " ++ option_token_fmt p.current_token),
       p) := by
  unfold Parser.outputs_loop
  cases hf : p.fuel with
  | zero => rfl
  | succ n => rw [Parser.outputs_loop_go, h]

theorem Parser.inputs_loop_eq_bad (p : Parser) (acc : List String) (t : TokenKind)
    (h : p.current_token = some t) (h1 : ∀ s, t ≠ .Identifier s)
    (h2 : t ≠ .Comma) (h3 : t ≠ .Newline) :
    p.inputs_loop acc =
      (.error ("Unexpected token in INPUTS section: " ++ option_token_fmt p.current_token),
       p) := by
  unfold Parser.inputs_loop
  rw [Parser.fuel_pos_succ p _ h, Parser.inputs_loop_go, h]
  cases t <;> simp_all

theorem Parser.outputs_loop_eq_bad (p : Parser) (acc : List String) (t : TokenKind)
    (h : p.current_token = some t) (h1 : ∀ s, t ≠ .Identifier s)
    (h2 : t ≠ .Comma) (h3 : t ≠ .Newline) :
    p.outputs_loop acc =
      (.error ("Unexpected token in OUTPUTS section: " ++ option_token_fmt p.current_token),
       p) := by
  unfold Parser.outputs_loop
  rw [Parser.fuel_pos_succ p _ h, Parser.outputs_loop_go, h]
  cases t <;> simp_all

theorem Parser.inputs_loop_go_tokens (n : Nat) :
    ∀ (p : Parser) (acc : List String),
      (Parser.inputs_loop_go n p acc).2.tokens = p.tokens := by
  induction n with
  | zero => intro p acc; rfl
  | succ n ih =>
    intro p acc
    rw [Parser.inputs_loop_go]
    cases h : p.current_token with
    | none => rfl
    | some t =>
      cases t <;> simp_all [Parser.advance_tokens]
      all_goals rw [ih, Parser.advance_tokens]

theorem Parser.inputs_loop_go_position (n : Nat) :
    ∀ (p : Parser) (acc : List String),
      p.position ≤ (Parser.inputs_loop_go n p acc).2.position := by
  induction n with
  | zero => intro p acc; exact Nat.le_refl _
  | succ n ih =>
    intro p acc
    rw [Parser.inputs_loop_go]
    have hadv := Parser.advance_position_succ p
    cases h : p.current_token with
    | none => exact Nat.le_refl _
    | some t =>
      cases t <;>
        first
          | exact Nat.le_refl _
          | (dsimp only []; omega)
          | (dsimp only []
             rename_i s
             have := ih p.advance (acc ++ [s])
             omega)
          | (dsimp only []
             have := ih p.advance acc
             omega)

theorem Parser.outputs_loop_go_tokens (n : Nat) :
    ∀ (p : Parser) (acc : List String),
      (Parser.outputs_loop_go n p acc).2.tokens = p.tokens := by
  induction n with
  | zero => intro p acc; rfl
  | succ n ih =>
    intro p acc
    rw [Parser.outputs_loop_go]
    cases h : p.current_token with
    | none => rfl
    | some t =>
      cases t <;> simp_all [Parser.advance_tokens]
      all_goals rw [ih, Parser.advance_tokens]

theorem Parser.outputs_loop_go_position (n : Nat) :
    ∀ (p : Parser) (acc : List String),
      p.position ≤ (Parser.outputs_loop_go n p acc).2.position := by
  induction n with
  | zero => intro p acc; exact Nat.le_refl _
  | succ n ih =>
    intro p acc
    rw [Parser.outputs_loop_go]
    have hadv := Parser.advance_position_succ p
    cases h : p.current_token with
    | none => exact Nat.le_refl _
    | some t =>
      cases t <;>
        first
          | exact Nat.le_refl _
          | (dsimp only []; omega)
          | (dsimp only []
             rename_i s
             have := ih p.advance (acc ++ [s])
             omega)
          | (dsimp only []
             have := ih p.advance acc
             omega)

theorem Parser.inputs_loop_tokens (p : Parser) (acc : List String) :
    (p.inputs_loop acc).2.tokens = p.tokens :=
  Parser.inputs_loop_go_tokens p.fuel p acc

theorem Parser.inputs_loop_position (p : Parser) (acc : List String) :
    p.position ≤ (p.inputs_loop acc).2.position :=
  Parser.inputs_loop_go_position p.fuel p acc

theorem Parser.outputs_loop_tokens (p : Parser) (acc : List String) :
    (p.outputs_loop acc).2.tokens = p.tokens :=
  Parser.outputs_loop_go_tokens p.fuel p acc

theorem Parser.outputs_loop_position (p : Parser) (acc : List String) :
    p.position ≤ (p.outputs_loop acc).2.position :=
  Parser.outputs_loop_go_position p.fuel p acc

theorem Parser.id_list_go_irrel (f : Nat) :
    ∀ (p : Parser) (acc : List String), p.fuel ≤ f →
      Parser.id_list_go f p acc = Parser.id_list_go p.fuel p acc := by
  induction f using Nat.strong_induction_on with
  | _ f ih =>
    intro p acc hf
    match f with
    | 0 =>
      have h0 : p.fuel = 0 := Nat.le_zero.mp hf
      rw [h0]
    | f + 1 =>
      cases h0 : p.fuel with
      | zero =>
        have hc := Parser.fuel_zero_current_none p h0
        conv_lhs => rw [Parser.id_list_go]
        rw [hc]
        rfl
      | succ m =>
        conv_lhs => rw [Parser.id_list_go]
        conv_rhs => rw [Parser.id_list_go]
        cases hc : p.current_token with
        | none => rfl
        | some t =>
          cases t <;> try rfl
          rename_i nm
          dsimp only []
          cases hc2 : (p.advance).current_token with
          | none => rfl
          | some t2 =>
            cases t2 <;> try rfl
            dsimp only []
            have hx : ((p.advance).advance).fuel ≤ m := by
              rw [Parser.advance_fuel_dec, Parser.advance_fuel_dec, h0]
              omega
            rw [ih f (Nat.lt_succ_self f) _ _ (le_trans hx (by omega)),
              ih m (by omega) _ _ hx]

theorem Parser.id_list_eq_ident_comma (p : Parser) (acc : List String) (nm : String)
    (h1 : p.current_token = some (.Identifier nm))
    (h2 : (p.advance).current_token = some .Comma) :
    p.id_list acc = ((p.advance).advance).id_list (acc ++ [nm]) := by
  unfold Parser.id_list
  rw [Parser.fuel_pos_succ p _ h1, Parser.id_list_go, h1]
  dsimp only []
  rw [h2]
  apply Parser.id_list_go_irrel
  rw [Parser.advance_fuel_dec, Parser.advance_fuel_dec]
  omega

theorem Parser.id_list_eq_ident_stop (p : Parser) (acc : List String) (nm : String)
    (h1 : p.current_token = some (.Identifier nm))
    (h2 : (p.advance).current_token ≠ some .Comma) :
    p.id_list acc = (acc ++ [nm], p.advance) := by
  unfold Parser.id_list
  rw [Parser.fuel_pos_succ p _ h1, Parser.id_list_go, h1]
  dsimp only []
  cases hc2 : (p.advance).current_token with
  | none => rfl
  | some t2 =>
    cases t2 <;> try rfl
    exact absurd hc2 h2

theorem Parser.id_list_eq_stop (p : Parser) (acc : List String)
    (h : ∀ nm, p.current_token ≠ some (.Identifier nm)) :
    p.id_list acc = (acc, p) := by
  unfold Parser.id_list
  cases hf : p.fuel with
  | zero => rfl
  | succ n =>
    rw [Parser.id_list_go]
    cases hc : p.current_token with
    | none => rfl
    | some t =>
      cases t <;> try rfl
      rename_i nm
      exact absurd hc (h nm)

theorem Parser.id_list_go_tokens (n : Nat) :
    ∀ (p : Parser) (acc : List String),
      (Parser.id_list_go n p acc).2.tokens = p.tokens := by
  induction n with
  | zero => intro p acc; rfl
  | succ n ih =>
    intro p acc
    rw [Parser.id_list_go]
    cases hc : p.current_token with
    | none => rfl
    | some t =>
      cases t <;> try rfl
      rename_i nm
      dsimp only []
      cases hc2 : (p.advance).current_token with
      | none => rfl
      | some t2 =>
        cases t2 <;> try rfl
        dsimp only []
        rw [ih, Parser.advance_tokens, Parser.advance_tokens]

theorem Parser.id_list_go_position (n : Nat) :
    ∀ (p : Parser) (acc : List String),
      p.position ≤ (Parser.id_list_go n p acc).2.position := by
  induction n with
  | zero => intro p acc; exact Nat.le_refl _
  | succ n ih =>
    intro p acc
    rw [Parser.id_list_go]
    have hadv := Parser.advance_position_succ p
    cases hc : p.current_token with
    | none => exact Nat.le_refl _
    | some t =>
      cases t <;> try exact Nat.le_refl _
      rename_i nm
      dsimp only []
      cases hc2 : (p.advance).current_token with
      | none => dsimp only []; omega
      | some t2 =>
        have hadv2 := Parser.advance_position_succ p.advance
        cases t2 <;> try (dsimp only []; omega)
        dsimp only []
        have := ih ((p.advance).advance) (acc ++ [nm])
        omega

theorem Parser.id_list_tokens (p : Parser) (acc : List String) :
    (p.id_list acc).2.tokens = p.tokens :=
  Parser.id_list_go_tokens p.fuel p acc

theorem Parser.id_list_position (p : Parser) (acc : List String) :
    p.position ≤ (p.id_list acc).2.position :=
  Parser.id_list_go_position p.fuel p acc

theorem pbind_error_eval {A B : Type} (e : String) (p1 : Parser)
    (g : A → Parser → Except String B × Parser) :
    pbind (.error e, p1) g = (.error e, p1) := rfl

theorem pbind_ok_eval {A B : Type} (x : A) (p1 : Parser)
    (g : A → Parser → Except String B × Parser) :
    pbind (.ok x, p1) g = g x p1 := rfl

theorem pbind_eq_ok {A B : Type} (r : Except String A × Parser)
    (g : A → Parser → Except String B × Parser) (b : B) (q : Parser) :
    pbind r g = (.ok b, q) ↔ ∃ x p1, r = (.ok x, p1) ∧ g x p1 = (.ok b, q) := by
  rcases r with ⟨a, p1⟩
  cases a with
  | error e => simp [pbind]
  | ok x =>
    simp only [pbind]
    constructor
    · intro h
      exact ⟨x, p1, rfl, h⟩
    · rintro ⟨x1, p2, heq, h⟩
      injection heq with h1 h2
      injection h1 with h1
      subst h1
      subst h2
      exact h

theorem pbind_tokens_eq {A B : Type} {r : Except String A × Parser}
    {g : A → Parser → Except String B × Parser} {T : List TokenKind}
    (hr : r.2.tokens = T)
    (hg : ∀ x p1, p1.tokens = T → (g x p1).2.tokens = T) :
    (pbind r g).2.tokens = T := by
  rcases r with ⟨a, p1⟩
  cases a with
  | error e => exact hr
  | ok x => exact hg x p1 hr

theorem pbind_position_le {A B : Type} {r : Except String A × Parser}
    {g : A → Parser → Except String B × Parser} {n : Nat}
    (hr : n ≤ r.2.position)
    (hg : ∀ x p1, n ≤ p1.position → n ≤ (g x p1).2.position) :
    n ≤ (pbind r g).2.position := by
  rcases r with ⟨a, p1⟩
  cases a with
  | error e => exact hr
  | ok x => exact hg x p1 hr

theorem Parser.parse_inputs_section_tokens (p : Parser) :
    (p.parse_inputs_section).2.tokens = p.tokens := by
  unfold Parser.parse_inputs_section
  apply pbind_tokens_eq
  · rw [Parser.expect_tokens, Parser.skip_newlines_tokens]
  · intro x p1 h1
    rw [Parser.inputs_loop_tokens]
    exact h1

theorem Parser.parse_inputs_section_position (p : Parser) :
    p.position ≤ (p.parse_inputs_section).2.position := by
  unfold Parser.parse_inputs_section
  apply pbind_position_le
  · exact le_trans (Parser.skip_newlines_position p)
      (Parser.expect_position_le p.skip_newlines .Inputs)
  · intro x p1 h1
    exact le_trans h1 (Parser.inputs_loop_position p1 [])

theorem Parser.parse_outputs_section_tokens (p : Parser) :
    (p.parse_outputs_section).2.tokens = p.tokens := by
  unfold Parser.parse_outputs_section
  apply pbind_tokens_eq
  · rw [Parser.expect_tokens]
  · intro x p1 h1
    rw [Parser.outputs_loop_tokens]
    exact h1

theorem Parser.parse_outputs_section_position (p : Parser) :
    p.position ≤ (p.parse_outputs_section).2.position := by
  unfold Parser.parse_outputs_section
  apply pbind_position_le
  · exact Parser.expect_position_le p .Outputs
  · intro x p1 h1
    exact le_trans h1 (Parser.outputs_loop_position p1 [])

theorem Parser.parse_component_ports_tokens (gt : GateType) (idf : String) (p : Parser) :
    (Parser.parse_component_ports gt idf p).2.tokens = p.tokens := by
  unfold Parser.parse_component_ports
  apply pbind_tokens_eq (Parser.expect_tokens p .In)
  intro _ p1 h1
  apply pbind_tokens_eq (by rw [Parser.expect_tokens]; exact h1)
  intro _ p2 h2
  apply pbind_tokens_eq (by rw [Parser.expect_tokens, Parser.id_list_tokens]; exact h2)
  intro _ p4 h4
  apply pbind_tokens_eq (by rw [Parser.expect_tokens]; exact h4)
  intro _ p5 h5
  apply pbind_tokens_eq (by rw [Parser.expect_tokens]; exact h5)
  intro _ p6 h6
  apply pbind_tokens_eq (by rw [Parser.expect_tokens, Parser.id_list_tokens]; exact h6)
  intro _ p8 h8
  exact h8

theorem Parser.parse_component_ports_position (gt : GateType) (idf : String) (p : Parser) :
    p.position ≤ (Parser.parse_component_ports gt idf p).2.position := by
  unfold Parser.parse_component_ports
  apply pbind_position_le (Parser.expect_position_le p .In)
  intro _ p1 h1
  apply pbind_position_le (le_trans h1 (Parser.expect_position_le p1 .ParenOpen))
  intro _ p2 h2
  apply pbind_position_le (le_trans h2 (le_trans (Parser.id_list_position p2 [])
    (Parser.expect_position_le (p2.id_list []).2 .ParenClose)))
  intro _ p4 h4
  apply pbind_position_le (le_trans h4 (Parser.expect_position_le p4 .Out))
  intro _ p5 h5
  apply pbind_position_le (le_trans h5 (Parser.expect_position_le p5 .ParenOpen))
  intro _ p6 h6
  apply pbind_position_le (le_trans h6 (le_trans (Parser.id_list_position p6 [])
    (Parser.expect_position_le (p6.id_list []).2 .ParenClose)))
  intro _ p8 h8
  exact h8

theorem Parser.parse_component_ports_shape (gt : GateType) (idf : String)
    (p : Parser) (comp : Component) (q : Parser)
    (h : Parser.parse_component_ports gt idf p = (.ok comp, q)) :
    comp.gate_type = gt ∧ comp.identifier = idf := by
  unfold Parser.parse_component_ports at h
  rw [pbind_eq_ok] at h
  obtain ⟨_, p1, _, h⟩ := h
  rw [pbind_eq_ok] at h
  obtain ⟨_, p2, _, h⟩ := h
  rw [pbind_eq_ok] at h
  obtain ⟨_, p4, _, h⟩ := h
  rw [pbind_eq_ok] at h
  obtain ⟨_, p5, _, h⟩ := h
  rw [pbind_eq_ok] at h
  obtain ⟨_, p6, _, h⟩ := h
  rw [pbind_eq_ok] at h
  obtain ⟨_, p8, _, h⟩ := h
  simp only [Prod.mk.injEq, Except.ok.injEq] at h
  rw [← h.1]
  exact ⟨rfl, rfl⟩

theorem Parser.parse_component_tokens (p : Parser) :
    (p.parse_component).2.tokens = p.tokens := by
  unfold Parser.parse_component
  cases hg : Parser.gate_type_of p.current_token with
  | error e => rfl
  | ok gt =>
    cases gt <;>
      first
        | (dsimp only []
           rw [Parser.parse_component_ports_tokens, Parser.advance_tokens])
        | (dsimp only []
           cases hc : (p.advance).current_token with
           | none => rfl
           | some t =>
             cases t <;> try rfl
             dsimp only []
             rw [Parser.parse_component_ports_tokens, Parser.advance_tokens,
               Parser.advance_tokens])

theorem Parser.parse_component_position (p : Parser) :
    p.position ≤ (p.parse_component).2.position := by
  unfold Parser.parse_component
  have hadv := Parser.advance_position_succ p
  have hadv2 := Parser.advance_position_succ p.advance
  cases hg : Parser.gate_type_of p.current_token with
  | error e => exact Nat.le_refl _
  | ok gt =>
    cases gt <;> dsimp only [] <;>
      first
        | (refine le_trans ?_ (Parser.parse_component_ports_position _ _ _)
           omega)
        | (cases hc : (p.advance).current_token with
           | none => dsimp only []; omega
           | some t =>
             cases t <;> try (dsimp only []; omega)
             dsimp only []
             refine le_trans ?_ (Parser.parse_component_ports_position _ _ _)
             omega)

theorem Parser.parse_component_progress (p : Parser) (comp : Component) (q : Parser)
    (h : p.parse_component = (.ok comp, q)) :
    p.position < q.position := by
  unfold Parser.parse_component at h
  have hadv := Parser.advance_position_succ p
  have hadv2 := Parser.advance_position_succ p.advance
  cases hg : Parser.gate_type_of p.current_token with
  | error e =>
    rw [hg] at h
    dsimp only [] at h
    exact absurd (congrArg Prod.fst h) (by simp)
  | ok gt =>
    rw [hg] at h
    dsimp only [] at h
    cases gt <;> dsimp only [] at h <;>
      first
        | (have h5 := congrArg Prod.snd h
           dsimp only [] at h5
           have h6 : (p.advance).position ≤ q.position := by
             rw [← h5]
             exact Parser.parse_component_ports_position _ _ _
           omega)
        | (cases hc : (p.advance).current_token with
           | none =>
             rw [hc] at h
             dsimp only [] at h
             exact absurd (congrArg Prod.fst h) (by simp)
           | some t =>
             rw [hc] at h
             cases t <;> dsimp only [] at h <;>
               first
                 | (injection h with hA hB
                    exact absurd hA (by simp))
                 | (have h5 := congrArg Prod.snd h
                    dsimp only [] at h5
                    have h6 : ((p.advance).advance).position ≤ q.position := by
                      rw [← h5]
                      exact Parser.parse_component_ports_position _ _ _
                    omega))

theorem Parser.component_list_go_irrel (f : Nat) :
    ∀ (p : Parser) (acc : List Component), p.fuel ≤ f →
      Parser.component_list_go f p acc = Parser.component_list_go p.fuel p acc := by
  induction f using Nat.strong_induction_on with
  | _ f ih =>
    intro p acc hf
    match f with
    | 0 =>
      have h0 : p.fuel = 0 := Nat.le_zero.mp hf
      rw [h0]
    | f + 1 =>
      cases h0 : p.fuel with
      | zero =>
        have hc := Parser.fuel_zero_current_none p h0
        conv_lhs => rw [Parser.component_list_go]
        rw [hc]
        rfl
      | succ m =>
        conv_lhs => rw [Parser.component_list_go]
        conv_rhs => rw [Parser.component_list_go]
        cases hc : p.current_token with
        | none => rfl
        | some t =>
          dsimp only []
          cases t <;> try rfl
          all_goals first
            | (dsimp only []
               have hx : (p.advance).fuel ≤ m := by
                 rw [Parser.advance_fuel_dec, h0]
                 omega
               rw [ih f (Nat.lt_succ_self f) _ _ (le_trans hx (by omega)),
                 ih m (by omega) _ _ hx])
            | (dsimp only []
               cases hpc : p.parse_component with
               | mk r p' =>
                 cases r with
                 | error e => rfl
                 | ok comp =>
                   dsimp only [pbind]
                   have hpos := Parser.parse_component_progress p comp p' hpc
                   have htok : p'.tokens = p.tokens := by
                     have h7 := Parser.parse_component_tokens p
                     rw [hpc] at h7
                     exact h7
                   have hx : p'.fuel ≤ m := by
                     unfold Parser.fuel at h0 ⊢
                     rw [htok]
                     omega
                   rw [ih f (Nat.lt_succ_self f) _ _ (le_trans hx (by omega)),
                     ih m (by omega) _ _ hx])

/-- Tokens that start a component statement in parse_component_list. -/
def component_start : TokenKind → Bool
  | .And | .Or | .Not | .Nand | .Nor | .Xor | .Xnor | .Identifier _ => true
  | _ => false

theorem Parser.component_loop_eq_start (p : Parser) (acc : List Component)
    (t : TokenKind) (h : p.current_token = some t) (ht : component_start t = true) :
    p.component_loop acc =
      pbind p.parse_component fun comp p' => p'.component_loop (acc ++ [comp]) := by
  unfold Parser.component_loop
  rw [Parser.fuel_pos_succ p t h, Parser.component_list_go, h]
  dsimp only []
  cases t <;> simp only [component_start] at ht <;>
    try exact (Bool.false_ne_true ht).elim
  all_goals
    (dsimp only []
     cases hpc : p.parse_component with
     | mk r p' =>
       cases r with
       | error e => rfl
       | ok comp =>
         dsimp only [pbind]
         apply Parser.component_list_go_irrel
         have hpos := Parser.parse_component_progress p comp p' hpc
         have htok : p'.tokens = p.tokens := by
           have h7 := Parser.parse_component_tokens p
           rw [hpc] at h7
           exact h7
         have hlen := Parser.current_token_lt p _ h
         unfold Parser.fuel
         rw [htok]
         omega)

theorem Parser.component_loop_eq_newline (p : Parser) (acc : List Component)
    (h : p.current_token = some .Newline) :
    p.component_loop acc = p.advance.component_loop acc := by
  unfold Parser.component_loop
  rw [Parser.fuel_pos_succ p _ h, Parser.component_list_go, h, Parser.advance_fuel_dec]

theorem Parser.component_loop_eq_end (p : Parser) (acc : List Component)
    (h : p.current_token = some .End) :
    p.component_loop acc = (.ok acc, p) := by
  unfold Parser.component_loop
  rw [Parser.fuel_pos_succ p _ h, Parser.component_list_go, h]

theorem Parser.component_loop_eq_eof (p : Parser) (acc : List Component)
    (h : p.current_token = some .EOF) :
    p.component_loop acc = (.ok acc, p) := by
  unfold Parser.component_loop
  rw [Parser.fuel_pos_succ p _ h, Parser.component_list_go, h]

theorem Parser.component_loop_eq_none (p : Parser) (acc : List Component)
    (h : p.current_token = none) :
    p.component_loop acc = (.ok acc, p) := by
  unfold Parser.component_loop
  cases hf : p.fuel with
  | zero => rfl
  | succ n => rw [Parser.component_list_go, h]

theorem Parser.component_loop_eq_bad (p : Parser) (acc : List Component)
    (t : TokenKind) (h : p.current_token = some t)
    (ht : component_start t = false) (h2 : t ≠ .Newline) (h3 : t ≠ .End)
    (h4 : t ≠ .EOF) :
    p.component_loop acc =
      (.error ("Unexpected token in component list: " ++ option_token_fmt p.current_token),
       p) := by
  unfold Parser.component_loop
  rw [Parser.fuel_pos_succ p _ h, Parser.component_list_go, h]
  cases t <;> simp_all [component_start]

theorem Parser.component_list_go_tokens (n : Nat) :
    ∀ (p : Parser) (acc : List Component),
      (Parser.component_list_go n p acc).2.tokens = p.tokens := by
  induction n with
  | zero => intro p acc; rfl
  | succ n ih =>
    intro p acc
    rw [Parser.component_list_go]
    cases hc : p.current_token with
    | none => rfl
    | some t =>
      dsimp only []
      cases t <;> try rfl
      all_goals first
        | (dsimp only []
           rw [ih, Parser.advance_tokens])
        | (dsimp only []
           cases hpc : p.parse_component with
           | mk r p' =>
             have htok : p'.tokens = p.tokens := by
               have h7 := Parser.parse_component_tokens p
               rw [hpc] at h7
               exact h7
             cases r with
             | error e => exact htok
             | ok comp =>
               dsimp only [pbind]
               rw [ih, htok])

theorem Parser.component_list_go_position (n : Nat) :
    ∀ (p : Parser) (acc : List Component),
      p.position ≤ (Parser.component_list_go n p acc).2.position := by
  induction n with
  | zero => intro p acc; exact Nat.le_refl _
  | succ n ih =>
    intro p acc
    rw [Parser.component_list_go]
    have hadv := Parser.advance_position_succ p
    cases hc : p.current_token with
    | none => exact Nat.le_refl _
    | some t =>
      dsimp only []
      cases t <;> try exact Nat.le_refl _
      all_goals first
        | (dsimp only []
           have := ih p.advance acc
           omega)
        | (dsimp only []
           cases hpc : p.parse_component with
           | mk r p' =>
             have hple : p.position ≤ p'.position := by
               have h7 := Parser.parse_component_position p
               rw [hpc] at h7
               exact h7
             cases r with
             | error e => exact hple
             | ok comp =>
               dsimp only [pbind]
               have := ih p' (acc ++ [comp])
               omega)

theorem Parser.component_loop_tokens (p : Parser) (acc : List Component) :
    (p.component_loop acc).2.tokens = p.tokens :=
  Parser.component_list_go_tokens p.fuel p acc

theorem Parser.component_loop_position (p : Parser) (acc : List Component) :
    p.position ≤ (p.component_loop acc).2.position :=
  Parser.component_list_go_position p.fuel p acc

theorem Parser.parse_component_list_tokens (p : Parser) :
    (p.parse_component_list).2.tokens = p.tokens :=
  Parser.component_loop_tokens p []

theorem Parser.parse_component_list_position (p : Parser) :
    p.position ≤ (p.parse_component_list).2.position :=
  Parser.component_loop_position p []

theorem Parser.parse_subcircuit_tokens (p : Parser) :
    (p.parse_subcircuit).2.tokens = p.tokens := by
  unfold Parser.parse_subcircuit
  apply pbind_tokens_eq (Parser.expect_tokens p .Subcircuit)
  intro _ p1 h1
  cases hc : p1.current_token with
  | none => exact h1
  | some t =>
    cases t <;> try exact h1
    dsimp only []
    apply pbind_tokens_eq (by rw [Parser.expect_tokens, Parser.advance_tokens]; exact h1)
    intro _ p2 h2
    apply pbind_tokens_eq (by rw [Parser.parse_inputs_section_tokens]; exact h2)
    intro _ p3 h3
    apply pbind_tokens_eq (by rw [Parser.parse_outputs_section_tokens]; exact h3)
    intro _ p4 h4
    apply pbind_tokens_eq (by rw [Parser.parse_component_list_tokens]; exact h4)
    intro _ p5 h5
    apply pbind_tokens_eq (by rw [Parser.expect_tokens]; exact h5)
    intro _ p6 h6
    apply pbind_tokens_eq (by rw [Parser.expect_tokens]; exact h6)
    intro _ p7 h7
    exact h7

theorem Parser.parse_subcircuit_position (p : Parser) :
    p.position ≤ (p.parse_subcircuit).2.position := by
  unfold Parser.parse_subcircuit
  apply pbind_position_le (Parser.expect_position_le p .Subcircuit)
  intro _ p1 h1
  cases hc : p1.current_token with
  | none => exact h1
  | some t =>
    cases t <;> try exact h1
    dsimp only []
    have hadv1 := Parser.advance_position_succ p1
    apply pbind_position_le (le_trans h1 (le_trans (by omega)
      (Parser.expect_position_le p1.advance .Newline)))
    intro _ p2 h2
    apply pbind_position_le (le_trans h2 (Parser.parse_inputs_section_position p2))
    intro _ p3 h3
    apply pbind_position_le (le_trans h3 (Parser.parse_outputs_section_position p3))
    intro _ p4 h4
    apply pbind_position_le (le_trans h4 (Parser.parse_component_list_position p4))
    intro _ p5 h5
    apply pbind_position_le (le_trans h5 (Parser.expect_position_le p5 .End))
    intro _ p6 h6
    apply pbind_position_le (le_trans h6 (Parser.expect_position_le p6 .Newline))
    intro _ p7 h7
    exact h7

theorem Parser.parse_subcircuit_progress (p : Parser) (sc : Subcircuit) (q : Parser)
    (h : p.parse_subcircuit = (.ok sc, q)) :
    p.position < q.position := by
  unfold Parser.parse_subcircuit at h
  rw [pbind_eq_ok] at h
  obtain ⟨x, p1, hexp, h⟩ := h
  obtain ⟨hcur, hp1⟩ := Parser.expect_ok_current p .Subcircuit p1 hexp
  have hadv : p1.position = p.position + 1 := by rw [hp1, Parser.advance_position_succ]
  cases hc : p1.current_token with
  | none =>
    rw [hc] at h
    dsimp only [] at h
    exact absurd (congrArg Prod.fst h) (by simp)
  | some t =>
    rw [hc] at h
    cases t <;> dsimp only [] at h <;>
      first
        | (injection h with hA hB
           exact absurd hA (by simp))
        | (have h5 := congrArg Prod.snd h
           dsimp only [] at h5
           have hadv1 := Parser.advance_position_succ p1
           have h6 : p1.position ≤ q.position := by
             rw [← h5]
             apply pbind_position_le (le_trans (le_of_eq rfl) (le_trans (by omega)
               (Parser.expect_position_le p1.advance .Newline)))
             intro _ p2 h2
             apply pbind_position_le (le_trans h2 (Parser.parse_inputs_section_position p2))
             intro _ p3 h3
             apply pbind_position_le (le_trans h3 (Parser.parse_outputs_section_position p3))
             intro _ p4 h4
             apply pbind_position_le (le_trans h4 (Parser.parse_component_list_position p4))
             intro _ p5 h5b
             apply pbind_position_le (le_trans h5b (Parser.expect_position_le p5 .End))
             intro _ p6 h6
             apply pbind_position_le (le_trans h6 (Parser.expect_position_le p6 .Newline))
             intro _ p7 h7
             exact h7
           omega)

theorem Parser.subcircuits_go_irrel (f : Nat) :
    ∀ (p : Parser) (acc : List (String × Subcircuit)), p.fuel ≤ f →
      Parser.subcircuits_go f p acc = Parser.subcircuits_go p.fuel p acc := by
  induction f using Nat.strong_induction_on with
  | _ f ih =>
    intro p acc hf
    match f with
    | 0 =>
      have h0 : p.fuel = 0 := Nat.le_zero.mp hf
      rw [h0]
    | f + 1 =>
      cases h0 : p.fuel with
      | zero =>
        have hc := Parser.fuel_zero_current_none p h0
        conv_lhs => rw [Parser.subcircuits_go]
        rw [hc]
        rfl
      | succ m =>
        conv_lhs => rw [Parser.subcircuits_go]
        conv_rhs => rw [Parser.subcircuits_go]
        cases hc : p.current_token with
        | none => rfl
        | some t =>
          cases t <;> try rfl
          dsimp only []
          cases hpc : p.parse_subcircuit with
          | mk r p' =>
            cases r with
            | error e => rfl
            | ok sc =>
              dsimp only [pbind]
              have hpos := Parser.parse_subcircuit_progress p sc p' hpc
              have htok : p'.tokens = p.tokens := by
                have h7 := Parser.parse_subcircuit_tokens p
                rw [hpc] at h7
                exact h7
              have hx : p'.fuel ≤ m := by
                unfold Parser.fuel at h0 ⊢
                rw [htok]
                omega
              rw [ih f (Nat.lt_succ_self f) _ _ (le_trans hx (by omega)),
                ih m (by omega) _ _ hx]

theorem Parser.parse_subcircuits_eq_sub (p : Parser) (acc : List (String × Subcircuit))
    (h : p.current_token = some .Subcircuit) :
    p.parse_subcircuits acc =
      pbind p.parse_subcircuit fun sc p' =>
        p'.parse_subcircuits (hashmap_insert acc sc.name sc) := by
  unfold Parser.parse_subcircuits
  rw [Parser.fuel_pos_succ p _ h, Parser.subcircuits_go, h]
  dsimp only []
  cases hpc : p.parse_subcircuit with
  | mk r p' =>
    cases r with
    | error e => rfl
    | ok sc =>
      dsimp only [pbind]
      apply Parser.subcircuits_go_irrel
      have hpos := Parser.parse_subcircuit_progress p sc p' hpc
      have htok : p'.tokens = p.tokens := by
        have h7 := Parser.parse_subcircuit_tokens p
        rw [hpc] at h7
        exact h7
      have hlen := Parser.current_token_lt p _ h
      unfold Parser.fuel
      rw [htok]
      omega

theorem Parser.parse_subcircuits_eq_stop (p : Parser) (acc : List (String × Subcircuit))
    (h : p.current_token ≠ some .Subcircuit) :
    p.parse_subcircuits acc = (.ok acc, p) := by
  unfold Parser.parse_subcircuits
  cases hf : p.fuel with
  | zero => rfl
  | succ n =>
    rw [Parser.subcircuits_go]
    cases hc : p.current_token with
    | none => rfl
    | some t =>
      cases t <;> try rfl
      exact absurd hc h

theorem Parser.subcircuits_go_tokens (n : Nat) :
    ∀ (p : Parser) (acc : List (String × Subcircuit)),
      (Parser.subcircuits_go n p acc).2.tokens = p.tokens := by
  induction n with
  | zero => intro p acc; rfl
  | succ n ih =>
    intro p acc
    rw [Parser.subcircuits_go]
    cases hc : p.current_token with
    | none => rfl
    | some t =>
      cases t <;> try rfl
      dsimp only []
      cases hpc : p.parse_subcircuit with
      | mk r p' =>
        have htok : p'.tokens = p.tokens := by
          have h7 := Parser.parse_subcircuit_tokens p
          rw [hpc] at h7
          exact h7
        cases r with
        | error e => exact htok
        | ok sc =>
          dsimp only [pbind]
          rw [ih, htok]

theorem Parser.subcircuits_go_position (n : Nat) :
    ∀ (p : Parser) (acc : List (String × Subcircuit)),
      p.position ≤ (Parser.subcircuits_go n p acc).2.position := by
  induction n with
  | zero => intro p acc; exact Nat.le_refl _
  | succ n ih =>
    intro p acc
    rw [Parser.subcircuits_go]
    cases hc : p.current_token with
    | none => exact Nat.le_refl _
    | some t =>
      cases t <;> try exact Nat.le_refl _
      dsimp only []
      cases hpc : p.parse_subcircuit with
      | mk r p' =>
        have hple : p.position ≤ p'.position := by
          have h7 := Parser.parse_subcircuit_position p
          rw [hpc] at h7
          exact h7
        cases r with
        | error e => exact hple
        | ok sc =>
          dsimp only [pbind]
          have := ih p' (hashmap_insert acc sc.name sc)
          omega

theorem Parser.parse_subcircuits_tokens (p : Parser) (acc : List (String × Subcircuit)) :
    (p.parse_subcircuits acc).2.tokens = p.tokens :=
  Parser.subcircuits_go_tokens p.fuel p acc

theorem Parser.parse_subcircuits_position (p : Parser) (acc : List (String × Subcircuit)) :
    p.position ≤ (p.parse_subcircuits acc).2.position :=
  Parser.subcircuits_go_position p.fuel p acc

theorem Parser.parse_program_tokens (p : Parser) :
    (p.parse_program).2.tokens = p.tokens := by
  unfold Parser.parse_program
  apply pbind_tokens_eq (Parser.parse_subcircuits_tokens p [])
  intro _ p1 h1
  apply pbind_tokens_eq (by rw [Parser.parse_inputs_section_tokens]; exact h1)
  intro _ p2 h2
  apply pbind_tokens_eq (by rw [Parser.parse_outputs_section_tokens]; exact h2)
  intro _ p3 h3
  apply pbind_tokens_eq (by rw [Parser.parse_component_list_tokens]; exact h3)
  intro _ p4 h4
  exact h4

theorem Parser.parse_program_position (p : Parser) :
    p.position ≤ (p.parse_program).2.position := by
  unfold Parser.parse_program
  apply pbind_position_le (Parser.parse_subcircuits_position p [])
  intro _ p1 h1
  apply pbind_position_le (le_trans h1 (Parser.parse_inputs_section_position p1))
  intro _ p2 h2
  apply pbind_position_le (le_trans h2 (Parser.parse_outputs_section_position p2))
  intro _ p3 h3
  apply pbind_position_le (le_trans h3 (Parser.parse_component_list_position p3))
  intro _ p4 h4
  exact h4

/-- Helper: on a primitive gate keyword, parse_component advances past it
and then requires an Identifier naming the instance. -/
theorem Parser.parse_component_prim_eq (p : Parser) (g : TokenKind) (gt : GateType)
    (hg : p.current_token = some g)
    (hgt : Parser.gate_type_of (some g) = .ok gt)
    (hns : ∀ s, gt ≠ .Subcircuit s) :
    p.parse_component =
      match (p.advance).current_token with
      | some (.Identifier name) => Parser.parse_component_ports gt name ((p.advance).advance)
      | _ => (.error "Expected identifier for component", p.advance) := by
  unfold Parser.parse_component
  rw [hg, hgt]
  dsimp only []
  cases gt <;> try rfl
  exact absurd rfl (hns _)

/-- C1: tokenizing the source `INPUTS a, b\nOUTPUTS c\nAND g1 IN(a, b) OUT(c)\n`
and running parse_program on the resulting token stream succeeds, producing a
Program with inputs ["a","b"], outputs ["c"], an empty subcircuit table, and
exactly one component: an And gate named "g1" with inputs ["a","b"] and
outputs ["c"]. -/
theorem claim_C1_round_trip :
    Lexer.tokenize (Lexer.new ("INPUTS a, b\nOUTPUTS c\nAND g1 IN(a, b) OUT(c)\n".toList)) =
      .ok [.Inputs, .Identifier "a", .Comma, .Identifier "b", .Newline,
           .Outputs, .Identifier "c", .Newline,
           .And, .Identifier "g1", .In, .ParenOpen, .Identifier "a", .Comma,
           .Identifier "b", .ParenClose, .Out, .ParenOpen, .Identifier "c",
           .ParenClose, .Newline, .EOF] ∧
    (Parser.new [.Inputs, .Identifier "a", .Comma, .Identifier "b", .Newline,
           .Outputs, .Identifier "c", .Newline,
           .And, .Identifier "g1", .In, .ParenOpen, .Identifier "a", .Comma,
           .Identifier "b", .ParenClose, .Out, .ParenOpen, .Identifier "c",
           .ParenClose, .Newline, .EOF]).parse_program.1 =
      .ok { subcircuits := [], inputs := ["a", "b"], outputs := ["c"],
            components := [{ gate_type := .And, identifier := "g1",
                             inputs := ["a", "b"], outputs := ["c"] }] } :=
  ⟨rfl, rfl⟩

/-- C2: in parse_component, a primitive gate keyword makes an instance
Identifier mandatory (its absence is the "Expected identifier for component"
error) and consumes it as the component's identifier; a leading Identifier
token (subcircuit call) consumes no instance identifier: the parse proceeds
directly to the port lists with gate_type Subcircuit(name) and the empty
string as identifier. -/
theorem claim_C2_component_identifier :
    (∀ (p : Parser) (g : TokenKind), p.current_token = some g →
      g = .And ∨ g = .Or ∨ g = .Not ∨ g = .Nand ∨ g = .Nor ∨ g = .Xor ∨ g = .Xnor →
      ((∀ s, (p.advance).current_token ≠ some (.Identifier s)) →
          p.parse_component = (.error "Expected identifier for component", p.advance)) ∧
      (∀ nm, (p.advance).current_token = some (.Identifier nm) →
          ∃ gt, Parser.gate_type_of (some g) = .ok gt ∧ (∀ s, gt ≠ .Subcircuit s) ∧
            p.parse_component = Parser.parse_component_ports gt nm ((p.advance).advance) ∧
            ∀ comp q, p.parse_component = (.ok comp, q) → comp.identifier = nm)) ∧
    (∀ (p : Parser) (nm : String), p.current_token = some (.Identifier nm) →
        p.parse_component = Parser.parse_component_ports (.Subcircuit nm) "" p.advance ∧
        ∀ comp q, p.parse_component = (.ok comp, q) →
          comp.gate_type = .Subcircuit nm ∧ comp.identifier = "") := by
  constructor
  · intro p g hg hprim
    have hgt2 : ∃ gt, Parser.gate_type_of (some g) = .ok gt ∧ ∀ s, gt ≠ .Subcircuit s := by
      rcases hprim with h|h|h|h|h|h|h <;> subst h <;>
        exact ⟨_, rfl, by intro s hcon; cases hcon⟩
    obtain ⟨gt, hgt, hns⟩ := hgt2
    have hpc := Parser.parse_component_prim_eq p g gt hg hgt hns
    constructor
    · intro hno
      rw [hpc]
      cases hc : (p.advance).current_token with
      | none => rfl
      | some t =>
        cases t <;> try rfl
        rename_i s
        exact absurd hc (hno s)
    · intro nm hc2
      have heq : p.parse_component = Parser.parse_component_ports gt nm ((p.advance).advance) := by
        rw [hpc, hc2]
      refine ⟨gt, hgt, hns, heq, ?_⟩
      intro comp q hok
      rw [heq] at hok
      exact (Parser.parse_component_ports_shape _ _ _ _ _ hok).2
  · intro p nm hg
    have heq : p.parse_component = Parser.parse_component_ports (.Subcircuit nm) "" p.advance := by
      unfold Parser.parse_component
      rw [hg]
      rfl
    refine ⟨heq, ?_⟩
    intro comp q hok
    rw [heq] at hok
    exact Parser.parse_component_ports_shape _ _ _ _ _ hok

/-- C2 witness: the two behaviours at concrete inputs: `AND` followed by `(`
is the missing-identifier error, and a subcircuit call `Half IN() OUT()`
parses with gate_type Subcircuit "Half" and the empty identifier. -/
theorem claim_C2_witness :
    (Parser.new [.And, .ParenOpen]).parse_component =
      (.error "Expected identifier for component", (Parser.new [.And, .ParenOpen]).advance) ∧
    ((Parser.new [.Identifier "Half", .In, .ParenOpen, .ParenClose,
        .Out, .ParenOpen, .ParenClose]).parse_component =
      Parser.parse_component_ports (.Subcircuit "Half") ""
        (Parser.new [.Identifier "Half", .In, .ParenOpen, .ParenClose,
          .Out, .ParenOpen, .ParenClose]).advance) := by
  constructor
  · exact (claim_C2_component_identifier.1 (Parser.new [.And, .ParenOpen]) .And rfl
      (Or.inl rfl)).1 (fun s h => by cases h)
  · exact (claim_C2_component_identifier.2 (Parser.new [.Identifier "Half", .In,
      .ParenOpen, .ParenClose, .Out, .ParenOpen, .ParenClose]) "Half" rfl).1

/-- C5: parse_inputs_section skips any leading Newline token (parsing from a
state whose current token is a newline is the same as parsing after it),
whereas parse_outputs_section requires OUTPUTS as the immediately current
token: a Newline there fails with "Expected Outputs, found Newline". -/
theorem claim_C5_newline_tolerance :
    (∀ p : Parser, p.current_token = some .Newline →
        p.parse_inputs_section = p.advance.parse_inputs_section) ∧
    (∀ p : Parser, p.current_token = some .Newline →
        (p.parse_outputs_section).1 = .error "Expected Outputs, found Newline") := by
  constructor
  · intro p h
    unfold Parser.parse_inputs_section
    rw [Parser.skip_newlines_eq_newline p h]
  · intro p h
    unfold Parser.parse_outputs_section Parser.expect
    rw [h]
    rfl

/-- C5 witness: both behaviours at concrete token streams. -/
theorem claim_C5_witness :
    (Parser.new [.Newline, .Inputs, .Newline]).parse_inputs_section =
      (Parser.new [.Newline, .Inputs, .Newline]).advance.parse_inputs_section ∧
    ((Parser.new [.Newline]).parse_outputs_section).1 =
      .error "Expected Outputs, found Newline" :=
  ⟨claim_C5_newline_tolerance.1 _ rfl, claim_C5_newline_tolerance.2 _ rfl⟩

/-- C7: keyword recognition is case-insensitive and requires an exact
full-token match after case folding: `and`, `AND`, `And` all scan to the And
token, while `AndGate` scans to an Identifier carrying its original text. -/
theorem claim_C7_case_insensitive_keywords :
    (Lexer.new "and".toList).get_next_token.1 = .ok .And ∧
    (Lexer.new "AND".toList).get_next_token.1 = .ok .And ∧
    (Lexer.new "And".toList).get_next_token.1 = .ok .And ∧
    (Lexer.new "AndGate".toList).get_next_token.1 = .ok (.Identifier "AndGate") :=
  ⟨rfl, rfl, rfl, rfl⟩

/-- C9: when the current character is alphabetic (the precondition under
which get_next_token invokes identifier), the identifier scan accumulates at
least one character (the position strictly advances) and never returns an
error, so the InvalidIdentifier branch is unreachable. -/
theorem claim_C9_invalid_identifier_unreachable (l : Lexer) (c : Char)
    (h : l.current_char = some c) (hc : c.isAlpha = true) :
    (∃ t, (l.identifier).1 = .ok t) ∧
    (∀ e, (l.identifier).1 ≠ .error e) ∧
    l.position < (l.identifier).2.position := by
  obtain ⟨heq, hpos⟩ := Lexer.identifier_ok l c h hc
  refine ⟨⟨keyword_or_identifier (l.take_ident "").1, by rw [heq]⟩, ?_, by rw [heq]; exact hpos⟩
  intro e hcon
  rw [heq] at hcon
  cases hcon

/-- C9 witness: the scan of "a" from its alphabetic first character. -/
theorem claim_C9_witness :
    (∃ t, ((Lexer.new "a".toList).identifier).1 = .ok t) ∧
    (∀ e, ((Lexer.new "a".toList).identifier).1 ≠ .error e) ∧
    (Lexer.new "a".toList).position < ((Lexer.new "a".toList).identifier).2.position :=
  claim_C9_invalid_identifier_unreachable (Lexer.new "a".toList) 'a' rfl rfl

theorem list_head_drop {A : Type} (l : List A) (n : Nat) :
    (l.drop n).head? = l.get? n := by
  induction l generalizing n with
  | nil => cases n <;> rfl
  | cons a l ih =>
    cases n with
    | zero => rfl
    | succ n => exact ih n

theorem Parser.current_token_eq_head (p : Parser) :
    p.current_token = (p.tokens.drop p.position).head? := by
  unfold Parser.current_token
  rw [list_head_drop]

theorem Parser.drop_advance_tail (p : Parser) :
    p.advance.tokens.drop p.advance.position = (p.tokens.drop p.position).tail := by
  rw [Parser.advance_tokens, Parser.advance_position_succ, List.tail_drop]

/-- A token a port list may contain: an identifier or a comma. -/
def is_ident_or_comma : TokenKind → Bool
  | .Identifier _ => true
  | .Comma => true
  | _ => false

/-- The identifier texts a token list carries, in order. -/
def idents_of (ts : List TokenKind) : List String :=
  ts.filterMap fun t =>
    match t with
    | .Identifier s => some s
    | _ => none

/-- The grammar production (identifier (COMMA identifier)*)? of the claim:
a possibly empty comma-separated identifier sequence with commas exactly
between consecutive identifiers, no leading, trailing or doubled comma. -/
def strict_port_list_shape : List TokenKind → Bool
  | [] => true
  | [.Identifier _] => true
  | .Identifier _ :: .Comma :: .Identifier s :: rest =>
    strict_port_list_shape (.Identifier s :: rest)
  | _ => false

/-- The shape the IN(...)/OUT(...) while loop actually accepts before the
closing parenthesis: identifiers separated by single commas, with an
optional trailing comma. -/
def paren_list_shape : List TokenKind → Bool
  | [] => true
  | [.Identifier _] => true
  | .Identifier _ :: .Comma :: rest => paren_list_shape rest
  | _ => false

/-- The INPUTS item loop accepts every interleaving of identifiers and
commas terminated by a newline, collecting the identifiers in order. -/
theorem Parser.inputs_loop_accepts (body : List TokenKind) :
    ∀ (p : Parser) (acc : List String) (rest : List TokenKind),
      p.tokens.drop p.position = body ++ .Newline :: rest →
      (∀ t ∈ body, is_ident_or_comma t = true) →
      p.inputs_loop acc =
        (.ok (acc ++ idents_of body),
         { tokens := p.tokens, position := p.position + body.length + 1 }) := by
  induction body with
  | nil =>
    intro p acc rest hdrop hall
    have hcur : p.current_token = some .Newline := by
      rw [Parser.current_token_eq_head, hdrop]
      rfl
    rw [Parser.inputs_loop_eq_newline p acc hcur]
    simp [idents_of, Parser.advance]
  | cons t body ih =>
    intro p acc rest hdrop hall
    have hcur : p.current_token = some t := by
      rw [Parser.current_token_eq_head, hdrop]
      rfl
    have hdrop2 : p.advance.tokens.drop p.advance.position = body ++ .Newline :: rest := by
      rw [Parser.drop_advance_tail, hdrop]
      rfl
    have ht := hall t (by simp)
    cases t <;> simp only [is_ident_or_comma] at ht <;>
      try exact (Bool.false_ne_true ht).elim
    case Identifier nm =>
      rw [Parser.inputs_loop_eq_ident p acc nm hcur]
      rw [ih p.advance (acc ++ [nm]) rest hdrop2 (fun t h => hall t (by simp [h]))]
      rw [Parser.advance_tokens, Parser.advance_position_succ]
      simp [idents_of, List.append_assoc]
      omega
    case Comma =>
      rw [Parser.inputs_loop_eq_comma p acc hcur]
      rw [ih p.advance acc rest hdrop2 (fun t h => hall t (by simp [h]))]
      rw [Parser.advance_tokens, Parser.advance_position_succ]
      simp [idents_of]
      omega

/-- The OUTPUTS item loop accepts every interleaving of identifiers and
commas terminated by a newline, collecting the identifiers in order. -/
theorem Parser.outputs_loop_accepts (body : List TokenKind) :
    ∀ (p : Parser) (acc : List String) (rest : List TokenKind),
      p.tokens.drop p.position = body ++ .Newline :: rest →
      (∀ t ∈ body, is_ident_or_comma t = true) →
      p.outputs_loop acc =
        (.ok (acc ++ idents_of body),
         { tokens := p.tokens, position := p.position + body.length + 1 }) := by
  induction body with
  | nil =>
    intro p acc rest hdrop hall
    have hcur : p.current_token = some .Newline := by
      rw [Parser.current_token_eq_head, hdrop]
      rfl
    rw [Parser.outputs_loop_eq_newline p acc hcur]
    simp [idents_of, Parser.advance]
  | cons t body ih =>
    intro p acc rest hdrop hall
    have hcur : p.current_token = some t := by
      rw [Parser.current_token_eq_head, hdrop]
      rfl
    have hdrop2 : p.advance.tokens.drop p.advance.position = body ++ .Newline :: rest := by
      rw [Parser.drop_advance_tail, hdrop]
      rfl
    have ht := hall t (by simp)
    cases t <;> simp only [is_ident_or_comma] at ht <;>
      try exact (Bool.false_ne_true ht).elim
    case Identifier nm =>
      rw [Parser.outputs_loop_eq_ident p acc nm hcur]
      rw [ih p.advance (acc ++ [nm]) rest hdrop2 (fun t h => hall t (by simp [h]))]
      rw [Parser.advance_tokens, Parser.advance_position_succ]
      simp [idents_of, List.append_assoc]
      omega
    case Comma =>
      rw [Parser.outputs_loop_eq_comma p acc hcur]
      rw [ih p.advance acc rest hdrop2 (fun t h => hall t (by simp [h]))]
      rw [Parser.advance_tokens, Parser.advance_position_succ]
      simp [idents_of]
      omega

/-- The IN(...)/OUT(...) while loop on a body of the accepted paren-list
shape consumes exactly the body, collecting its identifiers, and the
following ParenClose expectation succeeds. -/
theorem Parser.id_list_accepts (n : Nat) :
    ∀ (body : List TokenKind), body.length ≤ n →
    ∀ (p : Parser) (acc : List String) (rest : List TokenKind),
      p.tokens.drop p.position = body ++ .ParenClose :: rest →
      paren_list_shape body = true →
      p.id_list acc =
        (acc ++ idents_of body,
         { tokens := p.tokens, position := p.position + body.length }) := by
  induction n with
  | zero =>
    intro body hlen p acc rest hdrop hshape
    have hb : body = [] := List.eq_nil_of_length_eq_zero (Nat.le_zero.mp hlen)
    subst hb
    have hcur : p.current_token = some .ParenClose := by
      rw [Parser.current_token_eq_head, hdrop]
      rfl
    rw [Parser.id_list_eq_stop p acc (by intro nm hcon; rw [hcur] at hcon; cases hcon)]
    simp [idents_of]
  | succ n ih =>
    intro body hlen p acc rest hdrop hshape
    cases body with
    | nil =>
      have hcur : p.current_token = some .ParenClose := by
        rw [Parser.current_token_eq_head, hdrop]
        rfl
      rw [Parser.id_list_eq_stop p acc (by intro nm hcon; rw [hcur] at hcon; cases hcon)]
      simp [idents_of]
    | cons t body1 =>
      have hcur : p.current_token = some t := by
        rw [Parser.current_token_eq_head, hdrop]
        rfl
      cases t <;> try (simp [paren_list_shape] at hshape)
      case Identifier nm =>
      cases body1 with
      | nil =>
        have hc2 : (p.advance).current_token = some .ParenClose := by
          rw [Parser.current_token_eq_head, Parser.drop_advance_tail, hdrop]
          rfl
        rw [Parser.id_list_eq_ident_stop p acc nm hcur (by rw [hc2]; intro hcon; cases hcon)]
        simp [idents_of, Parser.advance]
      | cons t2 body2 =>
        cases t2 <;> try (simp [paren_list_shape] at hshape)
        case Comma =>
        have hc2 : (p.advance).current_token = some .Comma := by
          rw [Parser.current_token_eq_head, Parser.drop_advance_tail, hdrop]
          rfl
        have hdrop2 : ((p.advance).advance).tokens.drop ((p.advance).advance).position =
            body2 ++ .ParenClose :: rest := by
          rw [Parser.drop_advance_tail, Parser.drop_advance_tail, hdrop]
          rfl
        rw [Parser.id_list_eq_ident_comma p acc nm hcur hc2]
        have hshape2 : paren_list_shape body2 = true := by
          simpa [paren_list_shape] using hshape
        rw [ih body2 (by simp at hlen; omega) ((p.advance).advance) (acc ++ [nm])
          rest hdrop2 hshape2]
        rw [Parser.advance_tokens, Parser.advance_tokens,
          Parser.advance_position_succ, Parser.advance_position_succ]
        simp [idents_of, List.append_assoc]
        omega

theorem Parser.inputs_loop_rejects (p : Parser) (acc : List String) (t : TokenKind)
    (h : p.current_token = some t) (ht : is_ident_or_comma t = false)
    (hn : t ≠ .Newline) :
    (p.inputs_loop acc).1 =
      .error ("Unexpected token in INPUTS section: " ++ option_token_fmt p.current_token) := by
  have h1 : ∀ s, t ≠ .Identifier s := by
    intro s hcon
    subst hcon
    simp [is_ident_or_comma] at ht
  have h2 : t ≠ .Comma := by
    intro hcon
    subst hcon
    simp [is_ident_or_comma] at ht
  rw [Parser.inputs_loop_eq_bad p acc t h h1 h2 hn]

theorem Parser.outputs_loop_rejects (p : Parser) (acc : List String) (t : TokenKind)
    (h : p.current_token = some t) (ht : is_ident_or_comma t = false)
    (hn : t ≠ .Newline) :
    (p.outputs_loop acc).1 =
      .error ("Unexpected token in OUTPUTS section: " ++ option_token_fmt p.current_token) := by
  have h1 : ∀ s, t ≠ .Identifier s := by
    intro s hcon
    subst hcon
    simp [is_ident_or_comma] at ht
  have h2 : t ≠ .Comma := by
    intro hcon
    subst hcon
    simp [is_ident_or_comma] at ht
  rw [Parser.outputs_loop_eq_bad p acc t h h1 h2 hn]

theorem Parser.id_list_rejects (n : Nat) :
    ∀ (body : List TokenKind), body.length ≤ n →
    ∀ (p : Parser) (acc : List String) (rest : List TokenKind),
      p.tokens.drop p.position = body ++ .ParenClose :: rest →
      (∀ t ∈ body, is_ident_or_comma t = true) →
      paren_list_shape body = false →
      ∃ e, (((p.id_list acc).2).expect .ParenClose).1 = .error e := by
  induction n with
  | zero =>
    intro body hlen p acc rest hdrop hall hshape
    have hb : body = [] := List.eq_nil_of_length_eq_zero (Nat.le_zero.mp hlen)
    subst hb
    simp [paren_list_shape] at hshape
  | succ n ih =>
    intro body hlen p acc rest hdrop hall hshape
    cases body with
    | nil => simp [paren_list_shape] at hshape
    | cons t body1 =>
      have hcur : p.current_token = some t := by
        rw [Parser.current_token_eq_head, hdrop]
        rfl
      have ht := hall t (by simp)
      cases t <;> simp only [is_ident_or_comma] at ht <;>
        try exact (Bool.false_ne_true ht).elim
      case Comma =>
        rw [Parser.id_list_eq_stop p acc (by intro nm hcon; rw [hcur] at hcon; cases hcon)]
        refine ⟨"Expected ParenClose, found Comma", ?_⟩
        unfold Parser.expect
        rw [hcur]
        rfl
      case Identifier nm =>
        cases body1 with
        | nil => simp [paren_list_shape] at hshape
        | cons t2 body2 =>
          have ht2 := hall t2 (by simp)
          have hc2 : (p.advance).current_token = some t2 := by
            rw [Parser.current_token_eq_head, Parser.drop_advance_tail, hdrop]
            rfl
          cases t2 <;> simp only [is_ident_or_comma] at ht2 <;>
            try exact (Bool.false_ne_true ht2).elim
          case Comma =>
            have hdrop2 : ((p.advance).advance).tokens.drop ((p.advance).advance).position =
                body2 ++ .ParenClose :: rest := by
              rw [Parser.drop_advance_tail, Parser.drop_advance_tail, hdrop]
              rfl
            rw [Parser.id_list_eq_ident_comma p acc nm hcur hc2]
            have hshape2 : paren_list_shape body2 = false := by
              simpa [paren_list_shape] using hshape
            exact ih body2 (by simp at hlen; omega) ((p.advance).advance) (acc ++ [nm])
              rest hdrop2 (fun t h => hall t (by simp [h])) hshape2
          case Identifier s2 =>
            rw [Parser.id_list_eq_ident_stop p acc nm hcur (by rw [hc2]; intro hcon; cases hcon)]
            refine ⟨"Expected ParenClose, found " ++ (TokenKind.Identifier s2).debug_fmt, ?_⟩
            dsimp only []
            unfold Parser.expect
            rw [hc2]
            rfl

/-- C4 (amended): the INPUTS/OUTPUTS section lists accept every
interleaving of Identifier and Comma tokens terminated by a Newline,
collecting the identifiers in order, and reject exactly the tokens that are
neither; the IN(...)/OUT(...) lists accept precisely identifier sequences
with single commas between identifiers and an optional trailing comma, and
any other identifier/comma arrangement before the closing parenthesis makes
the following ParenClose expectation fail. -/
theorem claim_C4_port_list_shapes :
    (∀ (p : Parser) (acc : List String) (body rest : List TokenKind),
        p.tokens.drop p.position = body ++ .Newline :: rest →
        (∀ t ∈ body, is_ident_or_comma t = true) →
        p.inputs_loop acc =
          (.ok (acc ++ idents_of body),
           { tokens := p.tokens, position := p.position + body.length + 1 })) ∧
    (∀ (p : Parser) (acc : List String) (t : TokenKind),
        p.current_token = some t → is_ident_or_comma t = false → t ≠ .Newline →
        (p.inputs_loop acc).1 =
          .error ("Unexpected token in INPUTS section: " ++
            option_token_fmt p.current_token)) ∧
    (∀ (p : Parser) (acc : List String) (body rest : List TokenKind),
        p.tokens.drop p.position = body ++ .Newline :: rest →
        (∀ t ∈ body, is_ident_or_comma t = true) →
        p.outputs_loop acc =
          (.ok (acc ++ idents_of body),
           { tokens := p.tokens, position := p.position + body.length + 1 })) ∧
    (∀ (p : Parser) (acc : List String) (t : TokenKind),
        p.current_token = some t → is_ident_or_comma t = false → t ≠ .Newline →
        (p.outputs_loop acc).1 =
          .error ("Unexpected token in OUTPUTS section: " ++
            option_token_fmt p.current_token)) ∧
    (∀ (p : Parser) (acc : List String) (body rest : List TokenKind),
        p.tokens.drop p.position = body ++ .ParenClose :: rest →
        paren_list_shape body = true →
        p.id_list acc =
          (acc ++ idents_of body,
           { tokens := p.tokens, position := p.position + body.length }) ∧
        (((p.id_list acc).2).expect .ParenClose).1 = .ok ()) ∧
    (∀ (p : Parser) (acc : List String) (body rest : List TokenKind),
        p.tokens.drop p.position = body ++ .ParenClose :: rest →
        (∀ t ∈ body, is_ident_or_comma t = true) →
        paren_list_shape body = false →
        ∃ e, (((p.id_list acc).2).expect .ParenClose).1 = .error e) := by
  refine ⟨?_, ?_, ?_, ?_, ?_, ?_⟩
  · intro p acc body rest hdrop hall
    exact Parser.inputs_loop_accepts body p acc rest hdrop hall
  · intro p acc t h ht hn
    exact Parser.inputs_loop_rejects p acc t h ht hn
  · intro p acc body rest hdrop hall
    exact Parser.outputs_loop_accepts body p acc rest hdrop hall
  · intro p acc t h ht hn
    exact Parser.outputs_loop_rejects p acc t h ht hn
  · intro p acc body rest hdrop hshape
    have hacc := Parser.id_list_accepts body.length body (Nat.le_refl _) p acc rest
      hdrop hshape
    refine ⟨hacc, ?_⟩
    rw [hacc]
    have h1 : p.tokens.drop (p.position + body.length) = .ParenClose :: rest := by
      rw [← List.drop_drop, hdrop, List.drop_left]
    have hcur : ({ tokens := p.tokens, position := p.position + body.length } : Parser).current_token
        = some .ParenClose := by
      rw [Parser.current_token_eq_head]
      dsimp only []
      rw [h1]
      rfl
    rw [Parser.expect_eq_ok _ _ hcur]
  · intro p acc body rest hdrop hall hshape
    exact Parser.id_list_rejects body.length body (Nat.le_refl _) p acc rest
      hdrop hall hshape

/-- C4 counterexample: the INPUTS loop accepts the list `,,` (two adjacent
commas with no identifiers), and the IN/OUT loop accepts `a,` (a trailing
comma), both of which violate the claimed (identifier (COMMA identifier)*)?
production, so the parser does not reject every list outside that shape. -/
theorem claim_C4_counterexample :
    ((Parser.new [.Inputs, .Comma, .Comma, .Newline]).parse_inputs_section.1 = .ok [] ∧
     strict_port_list_shape [.Comma, .Comma] = false) ∧
    ((((Parser.new [.Identifier "a", .Comma, .ParenClose]).id_list []).2.expect
        .ParenClose).1 = .ok () ∧
     strict_port_list_shape [.Identifier "a", .Comma] = false) :=
  ⟨⟨rfl, rfl⟩, ⟨rfl, rfl⟩⟩

/-- C4 witness: the amended characterization applied at concrete lists: the
INPUTS loop on `a , , b <NL>`, and the IN/OUT loop accepting `a , b )` and
rejecting `, a )`. -/
theorem claim_C4_witness :
    (Parser.new [.Identifier "a", .Comma, .Comma, .Identifier "b", .Newline]).inputs_loop []
      = (.ok ["a", "b"],
         { tokens := [.Identifier "a", .Comma, .Comma, .Identifier "b", .Newline],
           position := 5 }) ∧
    (Parser.new [.Identifier "a", .Comma, .Identifier "b", .ParenClose]).id_list []
      = (["a", "b"],
         { tokens := [.Identifier "a", .Comma, .Identifier "b", .ParenClose],
           position := 3 }) ∧
    ∃ e, ((((Parser.new [.Comma, .Identifier "a", .ParenClose]).id_list []).2).expect
        .ParenClose).1 = .error e := by
  refine ⟨?_, ?_, ?_⟩
  · exact claim_C4_port_list_shapes.1
      (Parser.new [.Identifier "a", .Comma, .Comma, .Identifier "b", .Newline]) []
      [.Identifier "a", .Comma, .Comma, .Identifier "b"] [] rfl (by decide)
  · exact (claim_C4_port_list_shapes.2.2.2.2.1
      (Parser.new [.Identifier "a", .Comma, .Identifier "b", .ParenClose]) []
      [.Identifier "a", .Comma, .Identifier "b"] [] rfl (by decide)).1
  · exact claim_C4_port_list_shapes.2.2.2.2.2
      (Parser.new [.Comma, .Identifier "a", .ParenClose]) []
      [.Comma, .Identifier "a"] [] rfl (by decide) (by decide)

theorem Lexer.skip_whitespace_current (n : Nat) :
    ∀ (l : Lexer), l.fuel ≤ n → ∀ c : Char,
      l.skip_whitespace.current_char = some c →
      c = '\n' ∨ c.isWhitespace = false := by
  induction n with
  | zero =>
    intro l hf c h
    have h0 : l.fuel = 0 := Nat.le_zero.mp hf
    rw [Lexer.fuel_zero_current l h0] at h
    cases h
  | succ n ih =>
    intro l hf c h
    cases hl : l.current_char with
    | none =>
      rw [Lexer.skip_whitespace_eq_none l hl, hl] at h
      cases h
    | some c0 =>
      rw [Lexer.skip_whitespace_eq_some l c0 hl] at h
      by_cases h1 : c0 = '\n'
      · rw [if_pos h1, hl] at h
        injection h with h
        subst h
        exact Or.inl h1
      · by_cases h2 : c0.isWhitespace = true
        · rw [if_neg h1, if_pos h2] at h
          apply ih l.advance ?_ c h
          rw [Lexer.advance_fuel]
          have := Lexer.fuel_pos l c0 hl
          omega
        · rw [if_neg h1, if_neg h2, hl] at h
          injection h with h
          subst h
          simp at h2
          exact Or.inr h2

/-- The whitespace-or-comment skipping get_next_token performs before it
inspects a significant character: first skip_whitespace, then, at a `#`,
the rest of the comment line, repeatedly. -/
inductive SkipReaches : Lexer → Lexer → Prop where
  | ws (l : Lexer) : SkipReaches l l.skip_whitespace
  | comment (l l2 : Lexer) (hc : (l.skip_whitespace).current_char = some '#')
      (h : SkipReaches ((l.skip_whitespace).skip_line_comment) l2) : SkipReaches l l2

theorem Lexer.get_next_token_error_origin (n : Nat) :
    ∀ (l : Lexer), l.fuel ≤ n → ∀ (e : LexerError) (l2 : Lexer),
      l.get_next_token = (.error e, l2) →
      ∃ (c : Char) (lx : Lexer), SkipReaches l lx ∧ lx.current_char = some c ∧
        c.isAlpha = false ∧ c ≠ '#' ∧ c ≠ ',' ∧ c ≠ '(' ∧ c ≠ ')' ∧ c ≠ '\n' ∧
        c.isWhitespace = false ∧ e = .UnexpectedCharacter c lx.get_location ∧ l2 = lx := by
  induction n with
  | zero =>
    intro l hf e l2 h
    have h0 : l.fuel = 0 := Nat.le_zero.mp hf
    rw [Lexer.get_next_token_eq_none l (Lexer.fuel_zero_current l h0)] at h
    exact absurd (congrArg Prod.fst h) (by simp)
  | succ n ih =>
    intro l hf e l2 h
    cases hc : (l.skip_whitespace).current_char with
    | none =>
      rw [Lexer.get_next_token_eq_none l hc] at h
      exact absurd (congrArg Prod.fst h) (by simp)
    | some c =>
      rw [Lexer.get_next_token_eq_some l c hc] at h
      by_cases h1 : c.isAlpha = true
      · rw [if_pos h1] at h
        rw [(Lexer.identifier_ok l.skip_whitespace c hc h1).1] at h
        exact absurd (congrArg Prod.fst h) (by simp)
      · by_cases h2 : c = '#'
        · rw [if_neg h1, if_pos h2] at h
          subst h2
          have hfuel : ((l.skip_whitespace).skip_line_comment).fuel ≤ n := by
            have ha := Lexer.skip_whitespace_position l
            have hb := Lexer.skip_line_comment_position l.skip_whitespace '#' hc
            have hc1 := Lexer.skip_whitespace_source l
            have hc2 := Lexer.skip_line_comment_source l.skip_whitespace
            have hlt := Lexer.current_char_lt _ '#' hc
            rw [hc1] at hlt
            unfold Lexer.fuel at hf ⊢
            rw [hc2, hc1]
            omega
          obtain ⟨c', lx, hreach, hcc, hrest⟩ := ih _ hfuel e l2 h
          exact ⟨c', lx, SkipReaches.comment l lx hc hreach, hcc, hrest⟩
        · by_cases h3 : c = ','
          · rw [if_neg h1, if_neg h2, if_pos h3] at h
            exact absurd (congrArg Prod.fst h) (by simp)
          · by_cases h4 : c = '('
            · rw [if_neg h1, if_neg h2, if_neg h3, if_pos h4] at h
              exact absurd (congrArg Prod.fst h) (by simp)
            · by_cases h5 : c = ')'
              · rw [if_neg h1, if_neg h2, if_neg h3, if_neg h4, if_pos h5] at h
                exact absurd (congrArg Prod.fst h) (by simp)
              · by_cases h6 : c = '\n'
                · rw [if_neg h1, if_neg h2, if_neg h3, if_neg h4, if_neg h5,
                    if_pos h6] at h
                  exact absurd (congrArg Prod.fst h) (by simp)
                · rw [if_neg h1, if_neg h2, if_neg h3, if_neg h4, if_neg h5,
                    if_neg h6] at h
                  have hws : c.isWhitespace = false := by
                    rcases Lexer.skip_whitespace_current l.fuel l (Nat.le_refl _) c hc with
                      hn | hw
                    · exact absurd hn h6
                    · exact hw
                  injection h with ha hb
                  injection ha with ha
                  exact ⟨c, l.skip_whitespace, SkipReaches.ws l, hc,
                    (by simpa using h1), h2, h3, h4, h5, h6, hws, ha.symm, hb.symm⟩

theorem Lexer.get_next_token_error_sound (l lx : Lexer) (hr : SkipReaches l lx) :
    ∀ c : Char, lx.current_char = some c →
      c.isAlpha = false → c ≠ '#' → c ≠ ',' → c ≠ '(' → c ≠ ')' → c ≠ '\n' →
      l.get_next_token = (.error (.UnexpectedCharacter c lx.get_location), lx) := by
  induction hr with
  | ws l =>
    intro c hc h1 h2 h3 h4 h5 h6
    rw [Lexer.get_next_token_eq_some l c hc]
    simp [h1, h2, h3, h4, h5, h6]
  | comment l l2 hcm hrest ih =>
    intro c hc h1 h2 h3 h4 h5 h6
    rw [Lexer.get_next_token_eq_some l '#' hcm]
    rw [if_neg (by decide), if_pos rfl]
    exact ih c hc h1 h2 h3 h4 h5 h6

/-- C6: get_next_token fails exactly on a significant character outside the
accepted set.  Completeness: every error it returns is UnexpectedCharacter
carrying a character that is not alphabetic, not `#`, not one of `,` `(` `)`
or newline, and not whitespace, together with the location of the state
where that character is still current (captured before it is consumed).
Soundness: whenever whitespace/comment skipping reaches a state whose
current character is outside the accepted set, get_next_token returns
exactly that error. -/
theorem claim_C6_unexpected_character :
    (∀ (l : Lexer) (e : LexerError) (l2 : Lexer),
        l.get_next_token = (.error e, l2) →
        ∃ (c : Char) (lx : Lexer), SkipReaches l lx ∧ lx.current_char = some c ∧
          c.isAlpha = false ∧ c ≠ '#' ∧ c ≠ ',' ∧ c ≠ '(' ∧ c ≠ ')' ∧ c ≠ '\n' ∧
          c.isWhitespace = false ∧ e = .UnexpectedCharacter c lx.get_location ∧ l2 = lx) ∧
    (∀ (l lx : Lexer), SkipReaches l lx → ∀ c : Char, lx.current_char = some c →
        c.isAlpha = false → c ≠ '#' → c ≠ ',' → c ≠ '(' → c ≠ ')' → c ≠ '\n' →
        l.get_next_token = (.error (.UnexpectedCharacter c lx.get_location), lx)) :=
  ⟨fun l => Lexer.get_next_token_error_origin l.fuel l (Nat.le_refl _),
   fun l lx hr => Lexer.get_next_token_error_sound l lx hr⟩

/-- C6 witness: scanning "  %" yields UnexpectedCharacter '%' at line 1,
column 3, the position of the character itself. -/
theorem claim_C6_witness :
    (Lexer.new "  %".toList).get_next_token =
      (.error (.UnexpectedCharacter '%'
        ((Lexer.new "  %".toList).skip_whitespace.get_location)),
       (Lexer.new "  %".toList).skip_whitespace) ∧
    ((Lexer.new "  %".toList).skip_whitespace.get_location = { line := 1, column := 3 }) :=
  ⟨claim_C6_unexpected_character.2 _ _ (SkipReaches.ws _) '%' rfl rfl
    (by decide) (by decide) (by decide) (by decide) (by decide), rfl⟩

theorem Lexer.current_char_eq_head (l : Lexer) :
    l.current_char = (l.source.drop l.position).head? := by
  unfold Lexer.current_char
  rw [list_head_drop]

theorem Lexer.drop_advance (l : Lexer) :
    l.advance.source.drop l.advance.position = (l.source.drop l.position).tail := by
  rw [Lexer.advance_source, Lexer.advance_position, List.tail_drop]

theorem Lexer.get_next_token_congr (l l2 : Lexer)
    (h : l.skip_whitespace = l2.skip_whitespace) :
    l.get_next_token = l2.get_next_token := by
  cases hc : (l.skip_whitespace).current_char with
  | none =>
    rw [Lexer.get_next_token_eq_none l hc,
      Lexer.get_next_token_eq_none l2 (by rw [← h]; exact hc), h]
  | some c =>
    rw [Lexer.get_next_token_eq_some l c hc,
      Lexer.get_next_token_eq_some l2 c (by rw [← h]; exact hc), h]

theorem Lexer.tokenize_congr (l l2 : Lexer)
    (h : l.get_next_token = l2.get_next_token) :
    l.tokenize = l2.tokenize := by
  cases hgt : l.get_next_token with
  | mk r lx =>
    cases r with
    | error e =>
      rw [Lexer.tokenize_eq_error l e lx hgt,
        Lexer.tokenize_eq_error l2 e lx (by rw [← h]; exact hgt)]
    | ok t =>
      by_cases ht : t = .EOF
      · subst ht
        rw [Lexer.tokenize_eq_eof l lx hgt, Lexer.tokenize_eq_eof l2 lx (by rw [← h]; exact hgt)]
      · rw [Lexer.tokenize_eq_cons l t lx hgt ht,
          Lexer.tokenize_eq_cons l2 t lx (by rw [← h]; exact hgt) ht]

theorem Lexer.skip_line_comment_consume (pre : List Char) :
    ∀ (l : Lexer) (rest : List Char), '\n' ∉ pre →
      l.source.drop l.position = pre ++ '\n' :: rest →
      (l.skip_line_comment).source = l.source ∧
      (l.skip_line_comment).position = l.position + pre.length + 1 := by
  induction pre with
  | nil =>
    intro l rest hn hdrop
    have hcur : l.current_char = some '\n' := by
      rw [Lexer.current_char_eq_head, hdrop]
      rfl
    rw [Lexer.skip_line_comment_eq_some l '\n' hcur, if_pos rfl]
    refine ⟨Lexer.advance_source l, ?_⟩
    rw [Lexer.advance_position]
    simp
  | cons c pre ih =>
    intro l rest hn hdrop
    have hcur : l.current_char = some c := by
      rw [Lexer.current_char_eq_head, hdrop]
      rfl
    have hcn : c ≠ '\n' := by
      intro hcon
      exact hn (by rw [hcon]; simp)
    have hdrop2 : l.advance.source.drop l.advance.position = pre ++ '\n' :: rest := by
      rw [Lexer.drop_advance, hdrop]
      rfl
    rw [Lexer.skip_line_comment_eq_some l c hcur, if_neg hcn]
    obtain ⟨hs, hp⟩ := ih l.advance rest (fun hmem => hn (by simp [hmem])) hdrop2
    refine ⟨by rw [hs, Lexer.advance_source], ?_⟩
    rw [hp, Lexer.advance_position]
    simp
    omega

theorem Lexer.skip_line_comment_consume_all (pre : List Char) :
    ∀ (l : Lexer), '\n' ∉ pre →
      l.source.drop l.position = pre →
      (l.skip_line_comment).source = l.source ∧
      (l.skip_line_comment).position = l.position + pre.length := by
  induction pre with
  | nil =>
    intro l hn hdrop
    have hcur : l.current_char = none := by
      rw [Lexer.current_char_eq_head, hdrop]
      rfl
    rw [Lexer.skip_line_comment_eq_none l hcur]
    exact ⟨rfl, by simp⟩
  | cons c pre ih =>
    intro l hn hdrop
    have hcur : l.current_char = some c := by
      rw [Lexer.current_char_eq_head, hdrop]
      rfl
    have hcn : c ≠ '\n' := by
      intro hcon
      exact hn (by rw [hcon]; simp)
    have hdrop2 : l.advance.source.drop l.advance.position = pre := by
      rw [Lexer.drop_advance, hdrop]
      rfl
    rw [Lexer.skip_line_comment_eq_some l c hcur, if_neg hcn]
    obtain ⟨hs, hp⟩ := ih l.advance (fun hmem => hn (by simp [hmem])) hdrop2
    refine ⟨by rw [hs, Lexer.advance_source], ?_⟩
    rw [hp, Lexer.advance_position]
    simp
    omega

/-- Sources consisting only of whitespace and `#` line comments: empty, a
whitespace character followed by more of the same, a comment line (through
its newline) followed by more of the same, or a comment running to the end
of the input. -/
inductive WsComments : List Char → Prop where
  | nil : WsComments []
  | ws (c : Char) (rest : List Char) (hc : c.isWhitespace = true)
      (h : WsComments rest) : WsComments (c :: rest)
  | comment (body rest : List Char) (hb : '\n' ∉ body)
      (h : WsComments rest) : WsComments ('#' :: body ++ '\n' :: rest)
  | comment_eof (body : List Char) (hb : '\n' ∉ body) :
      WsComments ('#' :: body)

theorem Lexer.tokenize_ws_comments (n : Nat) :
    ∀ (cs : List Char), WsComments cs → ∀ l : Lexer, l.fuel ≤ n →
      l.source.drop l.position = cs →
      ∃ ts, l.tokenize = .ok ts ∧ ∀ t ∈ ts, t = .Newline ∨ t = .EOF := by
  induction n using Nat.strong_induction_on with
  | _ n ih =>
    intro cs hws l hfuel hd
    cases hws with
    | nil =>
      have hcur : l.current_char = none := by
        rw [Lexer.current_char_eq_head, hd]
        rfl
      have hsw : l.skip_whitespace = l := Lexer.skip_whitespace_eq_none l hcur
      have hgt := Lexer.get_next_token_eq_none l (by rw [hsw]; exact hcur)
      refine ⟨[.EOF], Lexer.tokenize_eq_eof l _ hgt, ?_⟩
      intro t ht
      simp only [List.mem_singleton] at ht
      exact Or.inr ht
    | ws c rest hc hrest =>
      have hcur : l.current_char = some c := by
        rw [Lexer.current_char_eq_head, hd]
        rfl
      have hfp := Lexer.fuel_pos l c hcur
      have hdrest : l.advance.source.drop l.advance.position = rest := by
        rw [Lexer.drop_advance, hd]
        rfl
      have hfadv : l.advance.fuel ≤ n - 1 := by
        rw [Lexer.advance_fuel]
        omega
      by_cases hcn : c = '\n'
      · subst hcn
        have hsw : l.skip_whitespace = l := by
          rw [Lexer.skip_whitespace_eq_some l '\n' hcur, if_pos rfl]
        have hgt : l.get_next_token = (.ok .Newline, l.advance) := by
          rw [Lexer.get_next_token_eq_some l '\n' (by rw [hsw]; exact hcur), hsw]
          rfl
        obtain ⟨ts, hts, hall⟩ :=
          ih (n - 1) (by omega) rest hrest l.advance hfadv hdrest
        refine ⟨.Newline :: ts, ?_, ?_⟩
        · rw [Lexer.tokenize_eq_cons l .Newline l.advance hgt (by decide), hts]
        · intro t ht
          rcases List.mem_cons.mp ht with h | h
          · exact Or.inl h
          · exact hall t h
      · have hsw : l.skip_whitespace = (l.advance).skip_whitespace := by
          rw [Lexer.skip_whitespace_eq_some l c hcur, if_neg hcn, if_pos hc]
        rw [Lexer.tokenize_congr l l.advance (Lexer.get_next_token_congr l l.advance hsw)]
        exact ih (n - 1) (by omega) rest hrest l.advance hfadv hdrest
    | comment body rest hb hrest =>
      have hcur : l.current_char = some '#' := by
        rw [Lexer.current_char_eq_head, hd]
        rfl
      have hfp := Lexer.fuel_pos l '#' hcur
      have hsw : l.skip_whitespace = l := by
        rw [Lexer.skip_whitespace_eq_some l '#' hcur]
        rfl
      have hgt : l.get_next_token = (l.skip_line_comment).get_next_token := by
        rw [Lexer.get_next_token_eq_some l '#' (by rw [hsw]; exact hcur), hsw]
        rfl
      have hnpre : '\n' ∉ ('#' :: body) := by
        intro hmem
        rcases List.mem_cons.mp hmem with h | h
        · exact absurd h (by decide)
        · exact hb h
      obtain ⟨hslcs, hslcp⟩ :=
        Lexer.skip_line_comment_consume ('#' :: body) l rest hnpre hd
      have hassoc : ('#' :: body) ++ '\n' :: rest = (('#' :: body) ++ ['\n']) ++ rest := by
        simp
      have hlen : (('#' :: body) ++ ['\n']).length = ('#' :: body).length + 1 := by
        simp
      have hdrop2 : (l.skip_line_comment).source.drop (l.skip_line_comment).position
          = rest := by
        have h2 := List.drop_drop (('#' :: body).length + 1) l.position l.source
        rw [hd, hassoc] at h2
        have h3 : ((('#' :: body) ++ ['\n']) ++ rest).drop ((('#' :: body) ++ ['\n']).length)
            = rest := List.drop_left _ _
        rw [hlen] at h3
        rw [h3] at h2
        rw [hslcs, hslcp,
          show l.position + ('#' :: body).length + 1
            = l.position + (('#' :: body).length + 1) from by omega]
        exact h2.symm
      have hfslc : (l.skip_line_comment).fuel ≤ n - 1 := by
        unfold Lexer.fuel at hfuel hfp ⊢
        rw [hslcs, hslcp]
        simp only [List.length_cons]
        omega
      rw [Lexer.tokenize_congr l l.skip_line_comment hgt]
      exact ih (n - 1) (by omega) rest hrest l.skip_line_comment hfslc hdrop2
    | comment_eof body hb =>
      have hcur : l.current_char = some '#' := by
        rw [Lexer.current_char_eq_head, hd]
        rfl
      have hsw : l.skip_whitespace = l := by
        rw [Lexer.skip_whitespace_eq_some l '#' hcur]
        rfl
      have hgt : l.get_next_token = (l.skip_line_comment).get_next_token := by
        rw [Lexer.get_next_token_eq_some l '#' (by rw [hsw]; exact hcur), hsw]
        rfl
      have hnpre : '\n' ∉ ('#' :: body) := by
        intro hmem
        rcases List.mem_cons.mp hmem with h | h
        · exact absurd h (by decide)
        · exact hb h
      obtain ⟨hslcs, hslcp⟩ :=
        Lexer.skip_line_comment_consume_all ('#' :: body) l hnpre hd
      have hdrop2 : (l.skip_line_comment).source.drop (l.skip_line_comment).position
          = [] := by
        have h2 := List.drop_drop (('#' :: body).length) l.position l.source
        rw [hd, List.drop_length] at h2
        rw [hslcs, hslcp]
        exact h2.symm
      have hcur2 : (l.skip_line_comment).current_char = none := by
        rw [Lexer.current_char_eq_head, hdrop2]
        rfl
      have hsw2 : (l.skip_line_comment).skip_whitespace = l.skip_line_comment :=
        Lexer.skip_whitespace_eq_none _ hcur2
      have hgt2 := Lexer.get_next_token_eq_none l.skip_line_comment
        (by rw [hsw2]; exact hcur2)
      refine ⟨[.EOF], ?_, ?_⟩
      · rw [Lexer.tokenize_congr l l.skip_line_comment hgt]
        exact Lexer.tokenize_eq_eof _ _ hgt2
      · intro t ht
        simp only [List.mem_singleton] at ht
        exact Or.inr ht

/-- C8: a source text consisting only of whitespace characters and `#` line
comments always lexes to completion without an error: tokenize succeeds, and
the resulting token list contains nothing but Newline tokens and the final
EOF token. -/
theorem claim_C8_whitespace_comments (cs : List Char) (h : WsComments cs) :
    ∃ ts, (Lexer.new cs).tokenize = .ok ts ∧ ∀ t ∈ ts, t = .Newline ∨ t = .EOF :=
  Lexer.tokenize_ws_comments (Lexer.new cs).fuel cs h (Lexer.new cs) (le_refl _) rfl

/-- Witness for C8 at the concrete source " \n# c". -/
theorem claim_C8_witness :
    ∃ ts, (Lexer.new (' ' :: '\n' :: '#' :: [' ', 'c'])).tokenize = .ok ts ∧
      ∀ t ∈ ts, t = .Newline ∨ t = .EOF :=
  claim_C8_whitespace_comments _
    (WsComments.ws ' ' _ (by decide)
      (WsComments.ws '\n' _ (by decide)
        (WsComments.comment_eof [' ', 'c'] (by decide))))

/-- Two lexer states that agree on the remaining (yet unscanned) text.  A
comment line changes absolute positions and line numbers but leaves the
remaining text equal, so the scanners run in lockstep from such states. -/
def LexR (l1 l2 : Lexer) : Prop :=
  l1.source.drop l1.position = l2.source.drop l2.position

/-- Two scan results that agree up to the payload of an error (error
locations may differ between LexR-related states; tokens may not). -/
def except_agrees (r1 r2 : Except LexerError TokenKind) : Prop :=
  (∃ e1 e2, r1 = .error e1 ∧ r2 = .error e2) ∨ (∃ t, r1 = .ok t ∧ r2 = .ok t)

theorem LexR_current (l1 l2 : Lexer) (h : LexR l1 l2) :
    l1.current_char = l2.current_char := by
  rw [Lexer.current_char_eq_head, Lexer.current_char_eq_head, h]

theorem LexR_advance (l1 l2 : Lexer) (h : LexR l1 l2) :
    LexR l1.advance l2.advance := by
  unfold LexR
  rw [Lexer.drop_advance, Lexer.drop_advance, h]

theorem LexR_skip_whitespace (n : Nat) : ∀ l1 l2 : Lexer, l1.fuel ≤ n →
    LexR l1 l2 → LexR l1.skip_whitespace l2.skip_whitespace := by
  induction n with
  | zero =>
    intro l1 l2 hf h
    have hc1 : l1.current_char = none := by
      apply Lexer.current_char_none
      unfold Lexer.fuel at hf
      omega
    have hc2 : l2.current_char = none := (LexR_current l1 l2 h).symm.trans hc1
    rw [Lexer.skip_whitespace_eq_none l1 hc1, Lexer.skip_whitespace_eq_none l2 hc2]
    exact h
  | succ n ih =>
    intro l1 l2 hf h
    cases hc : l1.current_char with
    | none =>
      have hc2 : l2.current_char = none := (LexR_current l1 l2 h).symm.trans hc
      rw [Lexer.skip_whitespace_eq_none l1 hc, Lexer.skip_whitespace_eq_none l2 hc2]
      exact h
    | some c =>
      have hc2 : l2.current_char = some c := (LexR_current l1 l2 h).symm.trans hc
      have hfp := Lexer.fuel_pos l1 c hc
      rw [Lexer.skip_whitespace_eq_some l1 c hc, Lexer.skip_whitespace_eq_some l2 c hc2]
      by_cases hn1 : c = '\n'
      · rw [if_pos hn1, if_pos hn1]
        exact h
      · rw [if_neg hn1, if_neg hn1]
        by_cases hw : c.isWhitespace = true
        · rw [if_pos hw, if_pos hw]
          exact ih l1.advance l2.advance (by rw [Lexer.advance_fuel]; omega)
            (LexR_advance l1 l2 h)
        · rw [if_neg hw, if_neg hw]
          exact h

theorem LexR_skip_line_comment (n : Nat) : ∀ l1 l2 : Lexer, l1.fuel ≤ n →
    LexR l1 l2 → LexR l1.skip_line_comment l2.skip_line_comment := by
  induction n with
  | zero =>
    intro l1 l2 hf h
    have hc1 : l1.current_char = none := by
      apply Lexer.current_char_none
      unfold Lexer.fuel at hf
      omega
    have hc2 : l2.current_char = none := (LexR_current l1 l2 h).symm.trans hc1
    rw [Lexer.skip_line_comment_eq_none l1 hc1, Lexer.skip_line_comment_eq_none l2 hc2]
    exact h
  | succ n ih =>
    intro l1 l2 hf h
    cases hc : l1.current_char with
    | none =>
      have hc2 : l2.current_char = none := (LexR_current l1 l2 h).symm.trans hc
      rw [Lexer.skip_line_comment_eq_none l1 hc, Lexer.skip_line_comment_eq_none l2 hc2]
      exact h
    | some c =>
      have hc2 : l2.current_char = some c := (LexR_current l1 l2 h).symm.trans hc
      have hfp := Lexer.fuel_pos l1 c hc
      rw [Lexer.skip_line_comment_eq_some l1 c hc, Lexer.skip_line_comment_eq_some l2 c hc2]
      by_cases hn1 : c = '\n'
      · rw [if_pos hn1, if_pos hn1]
        exact LexR_advance l1 l2 h
      · rw [if_neg hn1, if_neg hn1]
        exact ih l1.advance l2.advance (by rw [Lexer.advance_fuel]; omega)
          (LexR_advance l1 l2 h)

theorem LexR_take_ident (n : Nat) : ∀ (l1 l2 : Lexer) (acc : String), l1.fuel ≤ n →
    LexR l1 l2 →
    (l1.take_ident acc).1 = (l2.take_ident acc).1 ∧
    LexR (l1.take_ident acc).2 (l2.take_ident acc).2 := by
  induction n with
  | zero =>
    intro l1 l2 acc hf h
    have hc1 : l1.current_char = none := by
      apply Lexer.current_char_none
      unfold Lexer.fuel at hf
      omega
    have hc2 : l2.current_char = none := (LexR_current l1 l2 h).symm.trans hc1
    rw [Lexer.take_ident_eq_none l1 acc hc1, Lexer.take_ident_eq_none l2 acc hc2]
    exact ⟨rfl, h⟩
  | succ n ih =>
    intro l1 l2 acc hf h
    cases hc : l1.current_char with
    | none =>
      have hc2 : l2.current_char = none := (LexR_current l1 l2 h).symm.trans hc
      rw [Lexer.take_ident_eq_none l1 acc hc, Lexer.take_ident_eq_none l2 acc hc2]
      exact ⟨rfl, h⟩
    | some c =>
      have hc2 : l2.current_char = some c := (LexR_current l1 l2 h).symm.trans hc
      have hfp := Lexer.fuel_pos l1 c hc
      rw [Lexer.take_ident_eq_some l1 acc c hc, Lexer.take_ident_eq_some l2 acc c hc2]
      by_cases hcond : (c.isAlphanum || c = '_') = true
      · rw [if_pos hcond, if_pos hcond]
        exact ih l1.advance l2.advance (acc.push c) (by rw [Lexer.advance_fuel]; omega)
          (LexR_advance l1 l2 h)
      · rw [if_neg hcond, if_neg hcond]
        exact ⟨rfl, h⟩

theorem LexR_identifier (l1 l2 : Lexer) (h : LexR l1 l2) :
    except_agrees (l1.identifier).1 (l2.identifier).1 ∧
    LexR (l1.identifier).2 (l2.identifier).2 := by
  obtain ⟨hs, hR⟩ := LexR_take_ident l1.fuel l1 l2 "" (le_refl _) h
  cases h1 : l1.take_ident "" with
  | mk s1 l1' =>
  cases h2 : l2.take_ident "" with
  | mk s2 l2' =>
  have hs' : s1 = s2 := by rw [h1, h2] at hs; exact hs
  have hR' : LexR l1' l2' := by rw [h1, h2] at hR; exact hR
  unfold Lexer.identifier
  rw [h1, h2]
  dsimp only []
  subst hs'
  by_cases he : s1 = ""
  · rw [if_pos he, if_pos he]
    exact ⟨Or.inl ⟨_, _, rfl, rfl⟩, hR'⟩
  · rw [if_neg he, if_neg he]
    exact ⟨Or.inr ⟨_, rfl, rfl⟩, hR'⟩

theorem LexR_get_next_token (n : Nat) : ∀ l1 l2 : Lexer, l1.fuel ≤ n →
    LexR l1 l2 →
    except_agrees (l1.get_next_token).1 (l2.get_next_token).1 ∧
    LexR (l1.get_next_token).2 (l2.get_next_token).2 := by
  induction n using Nat.strong_induction_on with
  | _ n ih =>
    intro l1 l2 hf h
    have hR' : LexR l1.skip_whitespace l2.skip_whitespace :=
      LexR_skip_whitespace l1.fuel l1 l2 (le_refl _) h
    cases hc : l1.skip_whitespace.current_char with
    | none =>
      have hc2 : l2.skip_whitespace.current_char = none :=
        (LexR_current _ _ hR').symm.trans hc
      rw [Lexer.get_next_token_eq_none l1 hc, Lexer.get_next_token_eq_none l2 hc2]
      exact ⟨Or.inr ⟨.EOF, rfl, rfl⟩, hR'⟩
    | some c =>
      have hc2 : l2.skip_whitespace.current_char = some c :=
        (LexR_current _ _ hR').symm.trans hc
      have hcl := Lexer.current_char_lt l1.skip_whitespace c hc
      rw [Lexer.skip_whitespace_source l1] at hcl
      have hle1 := Lexer.skip_whitespace_position l1
      rw [Lexer.get_next_token_eq_some l1 c hc, Lexer.get_next_token_eq_some l2 c hc2]
      by_cases ha : c.isAlpha = true
      · rw [if_pos ha, if_pos ha]
        exact LexR_identifier _ _ hR'
      · rw [if_neg ha, if_neg ha]
        by_cases hh : c = '#'
        · rw [if_pos hh, if_pos hh]
          have hlt1 := Lexer.skip_line_comment_position l1.skip_whitespace c hc
          have hsl : (l1.skip_whitespace).skip_line_comment.source = l1.source := by
            rw [Lexer.skip_line_comment_source, Lexer.skip_whitespace_source]
          refine ih (n - 1) ?_ _ _ ?_
            (LexR_skip_line_comment (l1.skip_whitespace).fuel _ _ (le_refl _) hR')
          · unfold Lexer.fuel at hf
            omega
          · unfold Lexer.fuel at hf ⊢
            rw [hsl]
            omega
        · rw [if_neg hh, if_neg hh]
          by_cases h1 : c = ','
          · rw [if_pos h1, if_pos h1]
            exact ⟨Or.inr ⟨.Comma, rfl, rfl⟩, LexR_advance _ _ hR'⟩
          · rw [if_neg h1, if_neg h1]
            by_cases h2 : c = '('
            · rw [if_pos h2, if_pos h2]
              exact ⟨Or.inr ⟨.ParenOpen, rfl, rfl⟩, LexR_advance _ _ hR'⟩
            · rw [if_neg h2, if_neg h2]
              by_cases h3 : c = ')'
              · rw [if_pos h3, if_pos h3]
                exact ⟨Or.inr ⟨.ParenClose, rfl, rfl⟩, LexR_advance _ _ hR'⟩
              · rw [if_neg h3, if_neg h3]
                by_cases h4 : c = '\n'
                · rw [if_pos h4, if_pos h4]
                  exact ⟨Or.inr ⟨.Newline, rfl, rfl⟩, LexR_advance _ _ hR'⟩
                · rw [if_neg h4, if_neg h4]
                  exact ⟨Or.inl ⟨_, _, rfl, rfl⟩, hR'⟩

theorem LexR_tokenize (n : Nat) : ∀ l1 l2 : Lexer, l1.fuel ≤ n → LexR l1 l2 →
    (l1.tokenize).toOption = (l2.tokenize).toOption := by
  induction n using Nat.strong_induction_on with
  | _ n ih =>
    intro l1 l2 hf h
    obtain ⟨hag, hR2⟩ := LexR_get_next_token l1.fuel l1 l2 (le_refl _) h
    cases hg1 : l1.get_next_token with
    | mk r1 l1' =>
    cases hg2 : l2.get_next_token with
    | mk r2 l2' =>
    have hag2 : except_agrees r1 r2 := by rw [hg1, hg2] at hag; exact hag
    have hR22 : LexR l1' l2' := by rw [hg1, hg2] at hR2; exact hR2
    rcases hag2 with ⟨e1, e2, he1, he2⟩ | ⟨t, ht1, ht2⟩
    · subst he1
      subst he2
      rw [Lexer.tokenize_eq_error l1 e1 l1' hg1, Lexer.tokenize_eq_error l2 e2 l2' hg2]
      rfl
    · subst ht1
      subst ht2
      by_cases ht : t = .EOF
      · subst ht
        rw [Lexer.tokenize_eq_eof l1 l1' hg1, Lexer.tokenize_eq_eof l2 l2' hg2]
      · obtain ⟨hp1, hp2⟩ := Lexer.get_next_token_progress l1 t l1' hg1 ht
        have hsrc : l1'.source = l1.source := by
          have h5 := Lexer.get_next_token_source l1
          rw [hg1] at h5
          exact h5
        have hf1 : l1'.fuel ≤ n - 1 := by
          unfold Lexer.fuel at hf ⊢
          rw [hsrc]
          omega
        have hrec := ih (n - 1) (by unfold Lexer.fuel at hf; omega) l1' l2' hf1 hR22
        rw [Lexer.tokenize_eq_cons l1 t l1' hg1 ht, Lexer.tokenize_eq_cons l2 t l2' hg2 ht]
        cases t1 : l1'.tokenize with
        | error e =>
          cases t2 : l2'.tokenize with
          | error e2 => rfl
          | ok ts =>
            rw [t1, t2] at hrec
            exact absurd hrec (by simp [Except.toOption])
        | ok ts =>
          cases t2 : l2'.tokenize with
          | error e2 =>
            rw [t1, t2] at hrec
            exact absurd hrec (by simp [Except.toOption])
          | ok ts2 =>
            rw [t1, t2] at hrec
            simp only [Except.toOption] at hrec
            injection hrec with hts
            subst hts
            rfl

theorem Lexer.comment_line_toOption (body rest : List Char) (hb : '\n' ∉ body) :
    ((Lexer.new ('#' :: body ++ '\n' :: rest)).tokenize).toOption
      = ((Lexer.new rest).tokenize).toOption := by
  have hcur : (Lexer.new ('#' :: body ++ '\n' :: rest)).current_char = some '#' := rfl
  have hsw : (Lexer.new ('#' :: body ++ '\n' :: rest)).skip_whitespace
      = Lexer.new ('#' :: body ++ '\n' :: rest) := by
    rw [Lexer.skip_whitespace_eq_some _ '#' hcur]
    rfl
  have hgt : (Lexer.new ('#' :: body ++ '\n' :: rest)).get_next_token
      = ((Lexer.new ('#' :: body ++ '\n' :: rest)).skip_line_comment).get_next_token := by
    rw [Lexer.get_next_token_eq_some _ '#' (by rw [hsw]; exact hcur), hsw]
    rfl
  have hnpre : '\n' ∉ ('#' :: body) := by
    intro hmem
    rcases List.mem_cons.mp hmem with h | h
    · exact absurd h (by decide)
    · exact hb h
  obtain ⟨hslcs, hslcp⟩ := Lexer.skip_line_comment_consume ('#' :: body)
    (Lexer.new ('#' :: body ++ '\n' :: rest)) rest hnpre rfl
  have hlen : (Lexer.new ('#' :: body ++ '\n' :: rest)).position + ('#' :: body).length + 1
      = (('#' :: body) ++ ['\n']).length := by
    simp [Lexer.new]
  have hassoc : ('#' :: body) ++ '\n' :: rest = (('#' :: body) ++ ['\n']) ++ rest := by
    simp
  have hdropslc : ((Lexer.new ('#' :: body ++ '\n' :: rest)).skip_line_comment).source.drop
      ((Lexer.new ('#' :: body ++ '\n' :: rest)).skip_line_comment).position = rest := by
    rw [hslcs, hslcp, hlen]
    show List.drop ((('#' :: body) ++ ['\n']).length) (('#' :: body) ++ '\n' :: rest) = rest
    rw [hassoc]
    exact List.drop_left _ _
  have hR : LexR ((Lexer.new ('#' :: body ++ '\n' :: rest)).skip_line_comment)
      (Lexer.new rest) := by
    unfold LexR
    rw [hdropslc]
    rfl
  rw [Lexer.tokenize_congr _ _ hgt]
  exact LexR_tokenize ((Lexer.new ('#' :: body ++ '\n' :: rest)).skip_line_comment).fuel
    _ _ (le_refl _) hR

/-- C3 (amended): a `#` comment at the head of a line is consumed through and
including its terminating line break (source and relative position
characterized), a full comment LINE at the start of the source is invisible -
the token stream is the same as for the source with the comment line removed,
up to the location payload of a scan error - and in particular a successful
tokenization of the commented source is a successful tokenization of the
stripped source with the identical token list.  (The original claim's "for
every source text, inserting a # line comment produces a token stream that
the parser treats identically" is false: a comment inserted mid-line also
swallows the line's Newline token; see the counterexample.) -/
theorem claim_C3_comment_stripping :
    (∀ (body rest : List Char) (l : Lexer), '\n' ∉ body →
        l.source.drop l.position = '#' :: body ++ '\n' :: rest →
        (l.skip_line_comment).source = l.source ∧
        (l.skip_line_comment).position = l.position + body.length + 2) ∧
    (∀ (body rest : List Char), '\n' ∉ body →
        ((Lexer.new ('#' :: body ++ '\n' :: rest)).tokenize).toOption
          = ((Lexer.new rest).tokenize).toOption) ∧
    (∀ (body rest : List Char) (ts : List TokenKind), '\n' ∉ body →
        (Lexer.new ('#' :: body ++ '\n' :: rest)).tokenize = .ok ts →
        (Lexer.new rest).tokenize = .ok ts) := by
  refine ⟨?_, ?_, ?_⟩
  · intro body rest l hb hd
    have hnpre : '\n' ∉ ('#' :: body) := by
      intro hmem
      rcases List.mem_cons.mp hmem with h | h
      · exact absurd h (by decide)
      · exact hb h
    obtain ⟨hs, hp⟩ := Lexer.skip_line_comment_consume ('#' :: body) l rest hnpre hd
    refine ⟨hs, ?_⟩
    rw [hp]
    simp only [List.length_cons]
    omega
  · intro body rest hb
    exact Lexer.comment_line_toOption body rest hb
  · intro body rest ts hb hok
    have h2 := Lexer.comment_line_toOption body rest hb
    rw [hok] at h2
    cases h3 : (Lexer.new rest).tokenize with
    | error e =>
      rw [h3] at h2
      exact absurd h2 (by simp [Except.toOption])
    | ok ts2 =>
      rw [h3] at h2
      simp only [Except.toOption] at h2
      injection h2 with h4
      rw [h4]

/-- C3 counterexample: the claim's universal "inserting a # line comment
anywhere leaves the parse unchanged" fails, because a comment inserted after
the last token of a line swallows that line's Newline token.  The source
`INPUTS a\nOUTPUTS b\n` parses successfully, but inserting the comment `# c`
after `a` (source `INPUTS a# c\nOUTPUTS b\n`) makes the very same pipeline
fail: the INPUTS line no longer ends in a Newline token, so the INPUTS-section
loop runs into the Outputs keyword. -/
theorem claim_C3_counterexample :
    ((Lexer.new "INPUTS a\nOUTPUTS b\n".toList).tokenize.map
        (fun ts => ((Parser.new ts).parse_program).1))
      = .ok (.ok { subcircuits := [], inputs := ["a"], outputs := ["b"],
                   components := [] }) ∧
    ((Lexer.new "INPUTS a# c\nOUTPUTS b\n".toList).tokenize.map
        (fun ts => ((Parser.new ts).parse_program).1))
      = .ok (.error "Unexpected token in INPUTS section: Some(Outputs)") :=
  ⟨rfl, rfl⟩

/-- Witness for the amended C3, instantiating the comment-line invisibility at
the concrete source `# c\n\n` versus `\n`. -/
theorem claim_C3_witness :
    ((Lexer.new ('#' :: [' ', 'c'] ++ '\n' :: ['\n'])).tokenize).toOption
      = ((Lexer.new ['\n']).tokenize).toOption :=
  claim_C3_comment_stripping.2.1 [' ', 'c'] ['\n'] (by decide)

/-- The same parser state over a token stream extended with trailing tokens:
same cursor, extra tokens appended. -/
def Parser.ext (p : Parser) (extra : List TokenKind) : Parser :=
  { tokens := p.tokens ++ extra, position := p.position }

theorem Parser.ext_tokens (p : Parser) (extra : List TokenKind) :
    (p.ext extra).tokens = p.tokens ++ extra := rfl

theorem Parser.ext_position (p : Parser) (extra : List TokenKind) :
    (p.ext extra).position = p.position := rfl

theorem Parser.ext_advance (p : Parser) (extra : List TokenKind) :
    (p.ext extra).advance = (p.advance).ext extra := rfl

theorem Parser.ext_current (p : Parser) (extra : List TokenKind) (t : TokenKind)
    (h : p.current_token = some t) :
    (p.ext extra).current_token = some t := by
  have hlt : p.position < p.tokens.length := Parser.current_token_lt p t h
  unfold Parser.current_token at h ⊢
  rw [Parser.ext_tokens, Parser.ext_position, List.get?_append hlt]
  exact h

theorem Parser.ext_current_lt (p : Parser) (extra : List TokenKind)
    (hlt : p.position < p.tokens.length) :
    (p.ext extra).current_token = p.current_token := by
  unfold Parser.current_token
  rw [Parser.ext_tokens, Parser.ext_position]
  exact List.get?_append hlt

theorem Parser.expect_frame (p : Parser) (t : TokenKind) (extra : List TokenKind)
    (q : Parser) (h : p.expect t = (.ok (), q)) :
    (p.ext extra).expect t = (.ok (), q.ext extra) := by
  obtain ⟨hc, hq⟩ := Parser.expect_ok_current p t q h
  subst hq
  rw [Parser.expect_eq_ok _ t (Parser.ext_current p extra t hc), Parser.ext_advance]

theorem Parser.skip_newlines_frame (n : Nat) : ∀ (p : Parser) (extra : List TokenKind),
    p.fuel ≤ n → p.skip_newlines.position < p.tokens.length →
    (p.ext extra).skip_newlines = (p.skip_newlines).ext extra := by
  induction n with
  | zero =>
    intro p extra hf hlt
    have hc : p.current_token = none := Parser.fuel_zero_current_none p (Nat.le_zero.mp hf)
    have hs := Parser.skip_newlines_eq_stop p (by rw [hc]; simp)
    rw [hs] at hlt
    exfalso
    unfold Parser.fuel at hf
    omega
  | succ n ih =>
    intro p extra hf hlt
    by_cases hc : p.current_token = some .Newline
    · have hfp := Parser.fuel_pos_succ p _ hc
      have h1 := Parser.skip_newlines_eq_newline p hc
      rw [Parser.skip_newlines_eq_newline (p.ext extra) (Parser.ext_current p extra _ hc),
        Parser.ext_advance, h1]
      refine ih p.advance extra (by rw [Parser.advance_fuel_dec]; omega) ?_
      rw [h1] at hlt
      exact hlt
    · have h1 := Parser.skip_newlines_eq_stop p hc
      have hlt2 : p.position < p.tokens.length := by rw [h1] at hlt; exact hlt
      have hc2 : (p.ext extra).current_token ≠ some .Newline := by
        rw [Parser.ext_current_lt p extra hlt2]
        exact hc
      rw [Parser.skip_newlines_eq_stop _ hc2, h1]

theorem Parser.inputs_loop_frame (n : Nat) : ∀ (p : Parser) (acc out : List String)
    (q : Parser) (extra : List TokenKind), p.fuel ≤ n →
    p.inputs_loop acc = (.ok out, q) →
    (p.ext extra).inputs_loop acc = (.ok out, q.ext extra) := by
  induction n with
  | zero =>
    intro p acc out q extra hf h
    have hc : p.current_token = none := Parser.fuel_zero_current_none p (Nat.le_zero.mp hf)
    rw [Parser.inputs_loop_eq_none p acc hc] at h
    exact absurd (congrArg Prod.fst h) (by simp)
  | succ n ih =>
    intro p acc out q extra hf h
    cases hc : p.current_token with
    | none =>
      rw [Parser.inputs_loop_eq_none p acc hc] at h
      exact absurd (congrArg Prod.fst h) (by simp)
    | some t =>
      have hce : (p.ext extra).current_token = some t := Parser.ext_current p extra t hc
      have hfp := Parser.fuel_pos_succ p t hc
      by_cases hid : ∃ nm, t = TokenKind.Identifier nm
      · obtain ⟨nm, rfl⟩ := hid
        rw [Parser.inputs_loop_eq_ident p acc nm hc] at h
        rw [Parser.inputs_loop_eq_ident _ acc nm hce, Parser.ext_advance]
        exact ih p.advance (acc ++ [nm]) out q extra (by rw [Parser.advance_fuel_dec]; omega) h
      · by_cases hcm : t = .Comma
        · subst hcm
          rw [Parser.inputs_loop_eq_comma p acc hc] at h
          rw [Parser.inputs_loop_eq_comma _ acc hce, Parser.ext_advance]
          exact ih p.advance acc out q extra (by rw [Parser.advance_fuel_dec]; omega) h
        · by_cases hnl : t = .Newline
          · subst hnl
            rw [Parser.inputs_loop_eq_newline p acc hc] at h
            injection h with h1 h2
            injection h1 with h1
            subst h1
            subst h2
            rw [Parser.inputs_loop_eq_newline _ acc hce, Parser.ext_advance]
          · rw [Parser.inputs_loop_eq_bad p acc t hc
              (fun s hs => hid ⟨s, hs⟩) hcm hnl] at h
            exact absurd (congrArg Prod.fst h) (by simp)

theorem Parser.outputs_loop_frame (n : Nat) : ∀ (p : Parser) (acc out : List String)
    (q : Parser) (extra : List TokenKind), p.fuel ≤ n →
    p.outputs_loop acc = (.ok out, q) →
    (p.ext extra).outputs_loop acc = (.ok out, q.ext extra) := by
  induction n with
  | zero =>
    intro p acc out q extra hf h
    have hc : p.current_token = none := Parser.fuel_zero_current_none p (Nat.le_zero.mp hf)
    rw [Parser.outputs_loop_eq_none p acc hc] at h
    exact absurd (congrArg Prod.fst h) (by simp)
  | succ n ih =>
    intro p acc out q extra hf h
    cases hc : p.current_token with
    | none =>
      rw [Parser.outputs_loop_eq_none p acc hc] at h
      exact absurd (congrArg Prod.fst h) (by simp)
    | some t =>
      have hce : (p.ext extra).current_token = some t := Parser.ext_current p extra t hc
      have hfp := Parser.fuel_pos_succ p t hc
      by_cases hid : ∃ nm, t = TokenKind.Identifier nm
      · obtain ⟨nm, rfl⟩ := hid
        rw [Parser.outputs_loop_eq_ident p acc nm hc] at h
        rw [Parser.outputs_loop_eq_ident _ acc nm hce, Parser.ext_advance]
        exact ih p.advance (acc ++ [nm]) out q extra (by rw [Parser.advance_fuel_dec]; omega) h
      · by_cases hcm : t = .Comma
        · subst hcm
          rw [Parser.outputs_loop_eq_comma p acc hc] at h
          rw [Parser.outputs_loop_eq_comma _ acc hce, Parser.ext_advance]
          exact ih p.advance acc out q extra (by rw [Parser.advance_fuel_dec]; omega) h
        · by_cases hnl : t = .Newline
          · subst hnl
            rw [Parser.outputs_loop_eq_newline p acc hc] at h
            injection h with h1 h2
            injection h1 with h1
            subst h1
            subst h2
            rw [Parser.outputs_loop_eq_newline _ acc hce, Parser.ext_advance]
          · rw [Parser.outputs_loop_eq_bad p acc t hc
              (fun s hs => hid ⟨s, hs⟩) hcm hnl] at h
            exact absurd (congrArg Prod.fst h) (by simp)

theorem Parser.id_list_frame (n : Nat) : ∀ (p : Parser) (acc res : List String)
    (q : Parser) (extra : List TokenKind), p.fuel ≤ n →
    p.id_list acc = (res, q) → q.position < p.tokens.length →
    (p.ext extra).id_list acc = (res, q.ext extra) := by
  induction n with
  | zero =>
    intro p acc res q extra hf h hlt
    have hc : p.current_token = none := Parser.fuel_zero_current_none p (Nat.le_zero.mp hf)
    rw [Parser.id_list_eq_stop p acc (by rw [hc]; intro nm; simp)] at h
    injection h with h1 h2
    subst h1
    subst h2
    exfalso
    unfold Parser.fuel at hf
    omega
  | succ n ih =>
    intro p acc res q extra hf h hlt
    by_cases hid : ∃ nm, p.current_token = some (.Identifier nm)
    · obtain ⟨nm, hc⟩ := hid
      have hfp := Parser.fuel_pos_succ p _ hc
      by_cases hcm : (p.advance).current_token = some .Comma
      · rw [Parser.id_list_eq_ident_comma p acc nm hc hcm] at h
        rw [Parser.id_list_eq_ident_comma _ acc nm (Parser.ext_current p extra _ hc)
          (by rw [Parser.ext_advance]; exact Parser.ext_current p.advance extra _ hcm)]
        rw [Parser.ext_advance, Parser.ext_advance]
        exact ih ((p.advance).advance) (acc ++ [nm]) res q extra
          (by rw [Parser.advance_fuel_dec, Parser.advance_fuel_dec]; omega) h hlt
      · rw [Parser.id_list_eq_ident_stop p acc nm hc hcm] at h
        injection h with h1 h2
        subst h1
        subst h2
        rw [Parser.id_list_eq_ident_stop _ acc nm (Parser.ext_current p extra _ hc)
          (by rw [Parser.ext_advance, Parser.ext_current_lt p.advance extra hlt]; exact hcm)]
        rw [Parser.ext_advance]
    · have hstop := Parser.id_list_eq_stop p acc (fun nm hnm => hid ⟨nm, hnm⟩)
      rw [hstop] at h
      injection h with h1 h2
      subst h1
      subst h2
      rw [Parser.id_list_eq_stop _ acc
        (fun nm hnm => hid ⟨nm, by rw [← Parser.ext_current_lt p extra hlt]; exact hnm⟩)]

theorem Parser.parse_component_ports_frame (gt : GateType) (idf : String) (p : Parser)
    (comp : Component) (q : Parser) (extra : List TokenKind)
    (h : Parser.parse_component_ports gt idf p = (.ok comp, q)) :
    Parser.parse_component_ports gt idf (p.ext extra) = (.ok comp, q.ext extra) := by
  unfold Parser.parse_component_ports at h ⊢
  rw [pbind_eq_ok] at h
  obtain ⟨u1, p1, h1, h⟩ := h
  rw [pbind_eq_ok] at h
  obtain ⟨u2, p2, h2, h⟩ := h
  rw [pbind_eq_ok] at h
  obtain ⟨u3, p4, h3, h⟩ := h
  rw [pbind_eq_ok] at h
  obtain ⟨u4, p5, h4, h⟩ := h
  rw [pbind_eq_ok] at h
  obtain ⟨u5, p6, h5, h⟩ := h
  rw [pbind_eq_ok] at h
  obtain ⟨u6, p8, h6, h⟩ := h
  rw [Parser.expect_frame p .In extra p1 h1, pbind_ok_eval]
  rw [Parser.expect_frame p1 .ParenOpen extra p2 h2, pbind_ok_eval]
  have hcpc2 := (Parser.expect_ok_current _ .ParenClose p4 h3).1
  have hlt2 : (p2.id_list []).2.position < p2.tokens.length := by
    have h9 := Parser.current_token_lt _ _ hcpc2
    rw [Parser.id_list_tokens] at h9
    exact h9
  have hid2 : (p2.ext extra).id_list [] =
      ((p2.id_list []).1, ((p2.id_list []).2).ext extra) :=
    Parser.id_list_frame p2.fuel p2 [] _ _ extra (le_refl _) rfl hlt2
  have hA2 : ((p2.ext extra).id_list []).2.expect .ParenClose = (.ok (), p4.ext extra) := by
    rw [hid2]
    exact Parser.expect_frame _ .ParenClose extra p4 h3
  rw [hA2, pbind_ok_eval]
  rw [Parser.expect_frame p4 .Out extra p5 h4, pbind_ok_eval]
  rw [Parser.expect_frame p5 .ParenOpen extra p6 h5, pbind_ok_eval]
  have hcpc6 := (Parser.expect_ok_current _ .ParenClose p8 h6).1
  have hlt6 : (p6.id_list []).2.position < p6.tokens.length := by
    have h9 := Parser.current_token_lt _ _ hcpc6
    rw [Parser.id_list_tokens] at h9
    exact h9
  have hid6 : (p6.ext extra).id_list [] =
      ((p6.id_list []).1, ((p6.id_list []).2).ext extra) :=
    Parser.id_list_frame p6.fuel p6 [] _ _ extra (le_refl _) rfl hlt6
  have hA6 : ((p6.ext extra).id_list []).2.expect .ParenClose = (.ok (), p8.ext extra) := by
    rw [hid6]
    exact Parser.expect_frame _ .ParenClose extra p8 h6
  rw [hA6, pbind_ok_eval]
  have hfst2 : ((p2.ext extra).id_list []).1 = (p2.id_list []).1 := by
    rw [hid2]
  have hfst6 : ((p6.ext extra).id_list []).1 = (p6.id_list []).1 := by
    rw [hid6]
  rw [hfst2, hfst6]
  injection h with hA hB
  injection hA with hA
  subst hA
  subst hB
  rfl

theorem Parser.parse_component_sub_eq (p : Parser) (nm : String)
    (hg : p.current_token = some (.Identifier nm)) :
    p.parse_component = Parser.parse_component_ports (.Subcircuit nm) "" p.advance := by
  unfold Parser.parse_component
  rw [hg]
  dsimp only [Parser.gate_type_of]

theorem Parser.parse_component_frame (p : Parser) (comp : Component) (q : Parser)
    (extra : List TokenKind) (h : p.parse_component = (.ok comp, q)) :
    (p.ext extra).parse_component = (.ok comp, q.ext extra) := by
  cases hct : p.current_token with
  | none =>
    unfold Parser.parse_component at h
    rw [hct] at h
    dsimp only [Parser.gate_type_of] at h
    exact absurd (congrArg Prod.fst h) (by simp)
  | some t =>
    cases hg : Parser.gate_type_of (some t) with
    | error e =>
      unfold Parser.parse_component at h
      rw [hct, hg] at h
      dsimp only [] at h
      exact absurd (congrArg Prod.fst h) (by simp)
    | ok gt =>
      have hce : (p.ext extra).current_token = some t := Parser.ext_current p extra t hct
      by_cases hsub : ∃ nm, gt = GateType.Subcircuit nm
      · obtain ⟨nm, rfl⟩ := hsub
        have ht : t = .Identifier nm := by
          cases t <;> simp_all [Parser.gate_type_of]
        subst ht
        rw [Parser.parse_component_sub_eq p nm hct] at h
        rw [Parser.parse_component_sub_eq (p.ext extra) nm hce, Parser.ext_advance]
        exact Parser.parse_component_ports_frame _ "" p.advance comp q extra h
      · have hns : ∀ s, gt ≠ GateType.Subcircuit s := fun s hs => hsub ⟨s, hs⟩
        rw [Parser.parse_component_prim_eq p t gt hct hg hns] at h
        rw [Parser.parse_component_prim_eq (p.ext extra) t gt hce hg hns]
        cases hc2 : (p.advance).current_token with
        | none =>
          rw [hc2] at h
          dsimp only [] at h
          exact absurd (congrArg Prod.fst h) (by simp)
        | some t2 =>
          rw [hc2] at h
          by_cases hid : ∃ nm2, t2 = TokenKind.Identifier nm2
          · obtain ⟨nm2, rfl⟩ := hid
            dsimp only [] at h
            rw [Parser.ext_advance, Parser.ext_current p.advance extra _ hc2]
            dsimp only []
            rw [Parser.ext_advance]
            exact Parser.parse_component_ports_frame gt nm2 _ comp q extra h
          · exfalso
            cases t2 <;> first
              | exact hid ⟨_, rfl⟩
              | (dsimp only [] at h; exact absurd (congrArg Prod.fst h) (by simp))

theorem Parser.parse_inputs_section_frame (p : Parser) (ins : List String) (q : Parser)
    (extra : List TokenKind) (h : p.parse_inputs_section = (.ok ins, q)) :
    (p.ext extra).parse_inputs_section = (.ok ins, q.ext extra) := by
  unfold Parser.parse_inputs_section at h ⊢
  rw [pbind_eq_ok] at h
  obtain ⟨u1, p1, h1, h⟩ := h
  have hcn := (Parser.expect_ok_current _ .Inputs p1 h1).1
  have hlt : p.skip_newlines.position < p.tokens.length := by
    have h9 := Parser.current_token_lt _ _ hcn
    rw [Parser.skip_newlines_tokens] at h9
    exact h9
  rw [Parser.skip_newlines_frame p.fuel p extra (le_refl _) hlt]
  rw [Parser.expect_frame _ .Inputs extra p1 h1, pbind_ok_eval]
  exact Parser.inputs_loop_frame p1.fuel p1 [] ins q extra (le_refl _) h

theorem Parser.parse_outputs_section_frame (p : Parser) (outs : List String) (q : Parser)
    (extra : List TokenKind) (h : p.parse_outputs_section = (.ok outs, q)) :
    (p.ext extra).parse_outputs_section = (.ok outs, q.ext extra) := by
  unfold Parser.parse_outputs_section at h ⊢
  rw [pbind_eq_ok] at h
  obtain ⟨u1, p1, h1, h⟩ := h
  rw [Parser.expect_frame p .Outputs extra p1 h1, pbind_ok_eval]
  exact Parser.outputs_loop_frame p1.fuel p1 [] outs q extra (le_refl _) h

theorem Parser.component_loop_frame (n : Nat) : ∀ (p : Parser) (acc out : List Component)
    (q : Parser) (extra : List TokenKind), p.fuel ≤ n →
    p.component_loop acc = (.ok out, q) → q.position < p.tokens.length →
    (p.ext extra).component_loop acc = (.ok out, q.ext extra) := by
  induction n using Nat.strong_induction_on with
  | _ n ih =>
    intro p acc out q extra hf h hlt
    cases hc : p.current_token with
    | none =>
      rw [Parser.component_loop_eq_none p acc hc] at h
      injection h with h1 h2
      subst h2
      have hge : p.tokens.length ≤ p.position := by
        unfold Parser.current_token at hc
        exact List.get?_eq_none.mp hc
      omega
    | some t =>
      have hce : (p.ext extra).current_token = some t := Parser.ext_current p extra t hc
      have hfp := Parser.fuel_pos_succ p t hc
      have hcl := Parser.current_token_lt p t hc
      by_cases hstart : component_start t = true
      · rw [Parser.component_loop_eq_start p acc t hc hstart] at h
        rw [Parser.component_loop_eq_start _ acc t hce hstart]
        rw [pbind_eq_ok] at h
        obtain ⟨comp, p', hpc, h⟩ := h
        rw [Parser.parse_component_frame p comp p' extra hpc, pbind_ok_eval]
        have hppos := Parser.parse_component_progress p comp p' hpc
        have hptok : p'.tokens = p.tokens := by
          have h7 := Parser.parse_component_tokens p
          rw [hpc] at h7
          exact h7
        refine ih (n - 1) (by unfold Parser.fuel at hf; omega) p' (acc ++ [comp]) out q extra
          ?_ h ?_
        · unfold Parser.fuel at hf ⊢
          rw [hptok]
          omega
        · rw [hptok]
          exact hlt
      · by_cases hnl : t = .Newline
        · subst hnl
          rw [Parser.component_loop_eq_newline p acc hc] at h
          rw [Parser.component_loop_eq_newline _ acc hce, Parser.ext_advance]
          exact ih (n - 1) (by unfold Parser.fuel at hf; omega) p.advance acc out q extra
            (by rw [Parser.advance_fuel_dec]; omega) h hlt
        · by_cases hend : t = .End
          · subst hend
            rw [Parser.component_loop_eq_end p acc hc] at h
            injection h with h1 h2
            injection h1 with h1
            subst h1
            subst h2
            rw [Parser.component_loop_eq_end _ acc hce]
          · by_cases heof : t = .EOF
            · subst heof
              rw [Parser.component_loop_eq_eof p acc hc] at h
              injection h with h1 h2
              injection h1 with h1
              subst h1
              subst h2
              rw [Parser.component_loop_eq_eof _ acc hce]
            · have hsf : component_start t = false := by
                cases hcs : component_start t
                · rfl
                · exact absurd hcs hstart
              rw [Parser.component_loop_eq_bad p acc t hc hsf hnl hend heof] at h
              exact absurd (congrArg Prod.fst h) (by simp)

theorem Parser.parse_subcircuit_frame (p : Parser) (sc : Subcircuit) (q : Parser)
    (extra : List TokenKind) (h : p.parse_subcircuit = (.ok sc, q)) :
    (p.ext extra).parse_subcircuit = (.ok sc, q.ext extra) := by
  unfold Parser.parse_subcircuit at h ⊢
  rw [pbind_eq_ok] at h
  obtain ⟨u1, p1, h1, h⟩ := h
  rw [Parser.expect_frame p .Subcircuit extra p1 h1, pbind_ok_eval]
  cases hc1 : p1.current_token with
  | none =>
    rw [hc1] at h
    dsimp only [] at h
    exact absurd (congrArg Prod.fst h) (by simp)
  | some t1 =>
    rw [hc1] at h
    by_cases hid : ∃ nm, t1 = TokenKind.Identifier nm
    · obtain ⟨nm, rfl⟩ := hid
      dsimp only [] at h
      rw [Parser.ext_current p1 extra _ hc1]
      dsimp only []
      rw [Parser.ext_advance]
      rw [pbind_eq_ok] at h
      obtain ⟨u2, p2, h2, h⟩ := h
      rw [Parser.expect_frame (p1.advance) .Newline extra p2 h2, pbind_ok_eval]
      rw [pbind_eq_ok] at h
      obtain ⟨inputs, p3, h3, h⟩ := h
      rw [Parser.parse_inputs_section_frame p2 inputs p3 extra h3, pbind_ok_eval]
      rw [pbind_eq_ok] at h
      obtain ⟨outputs, p4, h4, h⟩ := h
      rw [Parser.parse_outputs_section_frame p3 outputs p4 extra h4, pbind_ok_eval]
      rw [pbind_eq_ok] at h
      obtain ⟨components, p5, h5, h⟩ := h
      rw [pbind_eq_ok] at h
      obtain ⟨u6, p6, h6, h⟩ := h
      have hce := (Parser.expect_ok_current p5 .End p6 h6).1
      have hlt5 : p5.position < p5.tokens.length := Parser.current_token_lt p5 _ hce
      have htok5 : p5.tokens = p4.tokens := by
        have h7 := Parser.parse_component_list_tokens p4
        rw [h5] at h7
        exact h7
      unfold Parser.parse_component_list at h5 ⊢
      rw [Parser.component_loop_frame p4.fuel p4 [] components p5 extra (le_refl _) h5
        (by rw [← htok5]; exact hlt5), pbind_ok_eval]
      rw [Parser.expect_frame p5 .End extra p6 h6, pbind_ok_eval]
      rw [pbind_eq_ok] at h
      obtain ⟨u7, p7, h7, h⟩ := h
      rw [Parser.expect_frame p6 .Newline extra p7 h7, pbind_ok_eval]
      injection h with hA hB
      injection hA with hA
      subst hA
      subst hB
      rfl
    · exfalso
      cases t1 <;> first
        | exact hid ⟨_, rfl⟩
        | (dsimp only [] at h; exact absurd (congrArg Prod.fst h) (by simp))

theorem Parser.subcircuits_frame (n : Nat) :
    ∀ (p : Parser) (acc out : List (String × Subcircuit))
      (q : Parser) (extra : List TokenKind), p.fuel ≤ n →
    p.parse_subcircuits acc = (.ok out, q) → q.position < p.tokens.length →
    (p.ext extra).parse_subcircuits acc = (.ok out, q.ext extra) := by
  induction n using Nat.strong_induction_on with
  | _ n ih =>
    intro p acc out q extra hf h hlt
    by_cases hc : p.current_token = some .Subcircuit
    · have hfp := Parser.fuel_pos_succ p _ hc
      have hcl := Parser.current_token_lt p _ hc
      rw [Parser.parse_subcircuits_eq_sub p acc hc] at h
      rw [Parser.parse_subcircuits_eq_sub _ acc (Parser.ext_current p extra _ hc)]
      rw [pbind_eq_ok] at h
      obtain ⟨sc, p', hpc, h⟩ := h
      rw [Parser.parse_subcircuit_frame p sc p' extra hpc, pbind_ok_eval]
      have hppos := Parser.parse_subcircuit_progress p sc p' hpc
      have hptok : p'.tokens = p.tokens := by
        have h7 := Parser.parse_subcircuit_tokens p
        rw [hpc] at h7
        exact h7
      refine ih (n - 1) (by unfold Parser.fuel at hf; omega) p' _ out q extra ?_ h ?_
      · unfold Parser.fuel at hf ⊢
        rw [hptok]
        omega
      · rw [hptok]
        exact hlt
    · rw [Parser.parse_subcircuits_eq_stop p acc hc] at h
      injection h with h1 h2
      injection h1 with h1
      subst h1
      subst h2
      have hc2 : (p.ext extra).current_token ≠ some .Subcircuit := by
        rw [Parser.ext_current_lt p extra hlt]
        exact hc
      rw [Parser.parse_subcircuits_eq_stop _ acc hc2]

theorem Parser.parse_program_frame (p : Parser) (prog : Program) (q : Parser)
    (extra : List TokenKind) (h : p.parse_program = (.ok prog, q))
    (hlt : q.position < p.tokens.length) :
    (p.ext extra).parse_program = (.ok prog, q.ext extra) := by
  unfold Parser.parse_program at h ⊢
  rw [pbind_eq_ok] at h
  obtain ⟨subs, p1, h1, h⟩ := h
  rw [pbind_eq_ok] at h
  obtain ⟨ins, p2, h2, h⟩ := h
  rw [pbind_eq_ok] at h
  obtain ⟨outs, p3, h3, h⟩ := h
  rw [pbind_eq_ok] at h
  obtain ⟨comps, p4, h4, h⟩ := h
  injection h with hA hB
  injection hA with hA
  subst hA
  subst hB
  have ht1 : p1.tokens = p.tokens := by
    have h9 := Parser.parse_subcircuits_tokens p []
    rw [h1] at h9
    exact h9
  have ht2 : p2.tokens = p1.tokens := by
    have h9 := Parser.parse_inputs_section_tokens p1
    rw [h2] at h9
    exact h9
  have ht3 : p3.tokens = p2.tokens := by
    have h9 := Parser.parse_outputs_section_tokens p2
    rw [h3] at h9
    exact h9
  have hp1 : p1.position ≤ p2.position := by
    have h9 := Parser.parse_inputs_section_position p1
    rw [h2] at h9
    exact h9
  have hp2 : p2.position ≤ p3.position := by
    have h9 := Parser.parse_outputs_section_position p2
    rw [h3] at h9
    exact h9
  have hp3 : p3.position ≤ p4.position := by
    have h9 := Parser.parse_component_list_position p3
    rw [h4] at h9
    exact h9
  rw [Parser.subcircuits_frame p.fuel p [] subs p1 extra (le_refl _) h1 (by omega),
    pbind_ok_eval]
  rw [Parser.parse_inputs_section_frame p1 ins p2 extra h2, pbind_ok_eval]
  rw [Parser.parse_outputs_section_frame p2 outs p3 extra h3, pbind_ok_eval]
  unfold Parser.parse_component_list at h4 ⊢
  rw [Parser.component_loop_frame p3.fuel p3 [] comps p4 extra (le_refl _) h4
    (by rw [ht3, ht2, ht1]; exact hlt), pbind_ok_eval]

/-- C10: an END token reached by the top-level component-list loop stops the
loop, returning the accumulated components successfully, without consuming
the END and without an error, and a successful parse never examines anything
from that stopping point on: whenever parse_program on a token stream
succeeds with its final cursor on an END token, running parse_program on the
stream with ANY extra tokens appended gives the very same successful Program
and the very same cursor position. -/
theorem claim_C10_trailing_tokens :
    (∀ (p : Parser) (acc : List Component), p.current_token = some .End →
        p.component_loop acc = (.ok acc, p)) ∧
    (∀ (ts extra : List TokenKind) (prog : Program) (q : Parser),
        (Parser.new ts).parse_program = (.ok prog, q) →
        ts.get? q.position = some .End →
        (Parser.new (ts ++ extra)).parse_program
          = (.ok prog, { tokens := ts ++ extra, position := q.position })) := by
  refine ⟨?_, ?_⟩
  · intro p acc h
    exact Parser.component_loop_eq_end p acc h
  · intro ts extra prog q h hEnd
    have hlt : q.position < ts.length := (List.get?_eq_some.mp hEnd).1
    have hframe := Parser.parse_program_frame (Parser.new ts) prog q extra h hlt
    have hqt : q.tokens = ts := by
      have h9 := Parser.parse_program_tokens (Parser.new ts)
      rw [h] at h9
      exact h9
    have hqe : q.ext extra = { tokens := ts ++ extra, position := q.position } := by
      unfold Parser.ext
      rw [hqt]
    rw [← hqe]
    exact hframe

/-- Witness for C10: the singleton stream [End] stops the component loop at
once, and the five-token stream INPUTS NEWLINE OUTPUTS NEWLINE END parses to
the empty program stopping on the END at position 4, unchanged when two junk
Comma tokens are appended. -/
theorem claim_C10_witness :
    (Parser.mk [TokenKind.End] 0).component_loop []
        = (.ok [], Parser.mk [TokenKind.End] 0) ∧
    (Parser.new ([TokenKind.Inputs, .Newline, .Outputs, .Newline, .End]
        ++ [.Comma, .Comma])).parse_program
        = (.ok { subcircuits := [], inputs := [], outputs := [], components := [] },
           { tokens := [TokenKind.Inputs, .Newline, .Outputs, .Newline, .End]
               ++ [.Comma, .Comma], position := 4 }) :=
  ⟨claim_C10_trailing_tokens.1 (Parser.mk [TokenKind.End] 0) [] rfl,
   claim_C10_trailing_tokens.2 [TokenKind.Inputs, .Newline, .Outputs, .Newline, .End]
     [.Comma, .Comma]
     { subcircuits := [], inputs := [], outputs := [], components := [] }
     { tokens := [TokenKind.Inputs, .Newline, .Outputs, .Newline, .End], position := 4 }
     rfl rfl⟩
